import Mathlib

/-!
Verification of the version-management utility `scripts/versioning.py`.

The development is a shallow embedding of the Python source:

* `version_regex` (line 12 of the source) is embedded as an executable
  matcher over `List Char` that reproduces Python `re.match` semantics for
  this particular pattern: ordered alternation, greedy repetition with
  backtracking, and the `$` anchor matching either at the end of the string
  or just before a single trailing newline.  Character classes are embedded
  at ASCII precision (the claims only concern ASCII inputs).
* `Version`, `Version.parse`, `Version.str` (Python `__str__`),
  `Version.lt` (Python `__lt__`), `Version.bump`, `validate`,
  `get_most_recent_tag`, `get_current_version` and the `tag` / `set`
  commands are embedded as pure functions.  External effects (git
  subprocess calls, file IO, printing) are modelled by passing their
  observable inputs (the `git describe` output, the two recorded version
  strings) as arguments and recording their observable outputs (the tag
  name created, whether files would be written) in result values.
* Python `None` is embedded as `Option.none`, a Python string `s` as
  `some s`; pydantic model equality compares all five fields, which is
  structural equality of the `Version` structure here.
-/

set_option maxRecDepth 10000

/-! ### Character classes of the regex (ASCII) -/

/-- The character class `[0-9a-zA-Z-]` used by prerelease and metadata
identifiers in `version_regex`. -/
def isIdChar (c : Char) : Bool := c.isDigit || c.isAlpha || c = '-'

/-- Numeric value of an ASCII digit character (embeds Python `int` on a
single digit). -/
def digitVal (c : Char) : Nat := c.toNat - 48

/-- Python `int()` on a string of ASCII digits (most significant first). -/
def digitsVal (A : List Char) : Nat := Nat.ofDigits 10 ((A.map digitVal).reverse)

/-- Digit character for a value `< 10` (used by Python `str` on ints). -/
def digitChar (d : Nat) : Char := Char.ofNat (48 + d)

/-- Decimal rendering of a positive natural, fuelled structural recursion
(fuel `≥ n` suffices; the wrapper `natChars` supplies it). -/
def natCharsAux : Nat → Nat → List Char
| 0, _ => []
| f + 1, n => if n = 0 then [] else natCharsAux f (n / 10) ++ [digitChar (n % 10)]

/-- Python `str` on a non-negative int: decimal digits, no leading zeros,
`"0"` for zero. -/
def natChars (n : Nat) : List Char := if n = 0 then ['0'] else natCharsAux (n + 1) n

/-- Python `str` on an int (possibly negative). -/
def intChars (i : Int) : List Char :=
  if i < 0 then '-' :: natChars i.natAbs else natChars i.natAbs

/-! ### The embedded regex matcher

`version_regex` is
`^(0|[1-9]\d*)\.(0|[1-9]\d*)\.(0|[1-9]\d*)`
`(?:-((?:0|[1-9]\d*|\d*[a-zA-Z-][0-9a-zA-Z-]*)(?:\.(?:0|[1-9]\d*|\d*[a-zA-Z-][0-9a-zA-Z-]*))*))?`
`(?:[\+\-]([0-9a-zA-Z-]+(?:\.[0-9a-zA-Z-]+)*))?$`.

The three numeric groups and the final metadata group are deterministic in
context (no following alternative can consume a digit after a shortened
greedy run, and the only continuation after the metadata group is `$`), so
they are embedded as deterministic splitters.  The prerelease group does
backtrack observably, so it is embedded as the ordered list of candidate
`(consumed, rest)` splits in exactly Python's exploration order, and the
overall match takes the first candidate whose continuation succeeds. -/

/-- Deterministic match of `(0|[1-9]\d*)` at the head of the input,
returning the consumed digits and the rest.  Determinism: in
`version_regex` every occurrence of this group is followed by `\.`, by
`(?:-...)?(?:[+-]...)?$`, none of which can start with a digit, so the
greedy run never needs to backtrack, and the two alternatives are
distinguished by the first character alone. -/
def numSplit : List Char → Option (List Char × List Char)
| [] => none
| c :: r =>
  if c = '0' then some (['0'], r)
  else if c.isDigit then some (c :: (r.span Char.isDigit).1, (r.span Char.isDigit).2)
  else none

/-- Greedy deterministic match of `[0-9a-zA-Z-]+(?:\.[0-9a-zA-Z-]+)*`
starting at a class character: consumes class characters, and a `.` only
when it is followed by a class character.  In `version_regex` this group is
always followed by `$`, so greedy matching without backtracking is
faithful: shortening the match only lengthens the rest, which can never
help `$`. -/
def g5run : List Char → List Char × List Char
| [] => ([], [])
| c :: r =>
  if isIdChar c then
    let p := g5run r
    (c :: p.1, p.2)
  else if c = '.' then
    match r with
    | d :: _ => if isIdChar d then let p := g5run r; ('.' :: p.1, p.2) else ([], '.' :: r)
    | [] => ([], ['.'])
  else ([], c :: r)

/-- Match of the metadata group `([0-9a-zA-Z-]+(?:\.[0-9a-zA-Z-]+)*)`:
fails unless the input starts with a class character. -/
def munch (x : List Char) : Option (List Char × List Char) :=
  match x with
  | c :: _ => if isIdChar c then some (g5run x) else none
  | [] => none

/-- The `$` anchor of Python `re`: end of input, or just before a single
trailing newline. -/
def endOK (r : List Char) : Bool := r = [] || r = ['\n']

/-- The continuation `(?:[\+\-](G5))?$` after the prerelease group: if the
head is `+` or `-` the group must match (skipping it would leave `$` at a
`+`/`-`, which fails), otherwise the group is skipped and `$` checked.
Returns the captured metadata group on success. -/
def K (r : List Char) : Option (Option (List Char)) :=
  match r with
  | c :: x =>
    if c = '+' || c = '-' then
      match munch x with
      | some p => if endOK p.2 then some (some p.1) else none
      | none => none
    else if endOK r then some none else none
  | [] => some none

/-- All splits `(pre ++ u.take j, u.drop j ++ rest)` for `j` from
`u.length` down to `0`: the backtracking order of a greedy `*` over a
character class that matched the run `u`. -/
def takeSweep (pre u rest : List Char) : List (List Char × List Char) :=
  (List.range (u.length + 1)).map
    (fun k => (pre ++ u.take (u.length - k), u.drop (u.length - k) ++ rest))

/-- Ordered candidate splits of the prerelease identifier
`(?:0|[1-9]\d*|\d*[a-zA-Z-][0-9a-zA-Z-]*)` at the head of `s`, in Python's
backtracking order: alternative 1 (`0`), then alternative 2 (`[1-9]\d*`,
greedy, longer first), then alternative 3.  In alternative 3 the greedy
`\d*` can only stop at the end of the full digit run (any earlier position
holds a digit, which is not in `[a-zA-Z-]`), so only that split of `\d*`
contributes, followed by the greedy sweep of `[0-9a-zA-Z-]*`. -/
def idMatches (s : List Char) : List (List Char × List Char) :=
  (match s with
   | '0' :: r => [(['0'], r)]
   | _ => [])
  ++ (match s with
      | c :: r =>
        if c.isDigit ∧ c ≠ '0' then takeSweep [c] (r.span Char.isDigit).1 (r.span Char.isDigit).2
        else []
      | [] => [])
  ++ (match (s.span Char.isDigit).2 with
      | c :: r =>
        if c.isAlpha ∨ c = '-' then
          takeSweep ((s.span Char.isDigit).1 ++ [c]) (r.span isIdChar).1 (r.span isIdChar).2
        else []
      | [] => [])

/-- Ordered candidate splits of `(?:\.ID)*` (greedy: more iterations
first, each iteration's identifier alternatives in `idMatches` order,
stopping last).  Fuelled structural recursion; each iteration consumes at
least two characters, so fuel `≥ length` suffices and the wrapper
`starDotID` supplies it. -/
def starF : Nat → List Char → List (List Char × List Char)
| 0, s => [([], s)]
| f + 1, s =>
  (match s with
   | '.' :: y =>
     (idMatches y).flatMap (fun p => (starF f p.2).map (fun q => ('.' :: (p.1 ++ q.1), q.2)))
   | _ => [])
  ++ [([], s)]

/-- Candidate splits of `(?:\.ID)*` at `s`. -/
def starDotID (s : List Char) : List (List Char × List Char) := starF s.length s

/-- Ordered candidate splits of the whole prerelease group
`ID(?:\.ID)*`. -/
def preMatches (s : List Char) : List (List Char × List Char) :=
  (idMatches s).flatMap (fun p => (starDotID p.2).map (fun q => (p.1 ++ q.1, q.2)))

/-- First candidate whose continuation `K` succeeds, with the captured
groups: the backtracking search over the prerelease candidates. -/
def scanCands : List (List Char × List Char) → Option (List Char × Option (List Char))
| [] => none
| p :: rest =>
  match K p.2 with
  | some m => some (p.1, m)
  | none => scanCands rest

/-- Match of `(?:-(G4))?(?:[\+\-](G5))?$` on the tail after the three
numeric groups, returning the captured (prerelease, metadata) groups.  On
a `-` head Python first tries to enter the prerelease group (all its
candidates, each with the full continuation `K`), and only if every
candidate fails skips the group, letting `[\+\-]` consume the `-`. -/
def tailScan (t : List Char) : Option (Option (List Char) × Option (List Char)) :=
  match t with
  | '-' :: x =>
    (match scanCands (preMatches x) with
     | some pm => some (some pm.1, pm.2)
     | none => (K t).map (fun m => (none, m)))
  | _ => (K t).map (fun m => (none, m))

/-- Full match of `version_regex` against a character list: the three
numeric groups separated by literal dots, then the tail.  Returns the
numeric values (Python converts the captured strings with `int`) and the
two optional captured groups. -/
def reMatch (s : List Char) : Option (Nat × Nat × Nat × Option (List Char) × Option (List Char)) :=
  match numSplit s with
  | some (A, '.' :: r1) =>
    (match numSplit r1 with
     | some (B, '.' :: r2) =>
       (match numSplit r2 with
        | some (C, t) =>
          (tailScan t).map (fun pm => (digitsVal A, digitsVal B, digitsVal C, pm.1, pm.2))
        | none => none)
     | _ => none)
  | _ => none

/-! ### The `Version` model -/

/-- The pydantic model `Version` (source lines 30-35).  `Optional[str]`
fields embed as `Option String`; pydantic distinguishes `None` from `""`,
as does structural equality here.  The source declares the defaults
`prerelease = ""`, `metadata = ""`. -/
structure Version where
  major : Int
  minor : Int
  patch : Int
  prerelease : Option String := some ""
  metadata : Option String := some ""
deriving DecidableEq

/-- Python truthiness of an `Optional[str]`: `None` and `""` are falsy. -/
def optTruthy : Option String → Bool
| none => false
| some s => s ≠ ""

/-- Python `version_str.startswith("v")`. -/
def startsWithV (s : String) : Bool :=
  match s.data with
  | c :: _ => c = 'v'
  | [] => false

/-- `Version.parse` (source lines 37-54): reject a leading `v`, then match
`version_regex`; on failure raise `ValueError` (embedded as `.error` with
the message text), on success build the model from the captured groups
(absent groups are `None`). -/
def Version.parse (version_str : String) : Except String Version :=
  if startsWithV version_str then
    .error ("Version starts with v please remove it before proceeding: " ++ version_str)
  else
    match reMatch version_str.data with
    | some (a, b, c, pre, meta) =>
      .ok { major := (a : Int), minor := (b : Int), patch := (c : Int),
            prerelease := pre.map (fun l => String.mk l),
            metadata := meta.map (fun l => String.mk l) }
    | none => .error ("Unknown version string: " ++ version_str)

/-- `Version.__str__` (source lines 56-63) as a character list:
`MAJOR.MINOR.PATCH`, then `-PRERELEASE` if prerelease is truthy, then
`+METADATA` if metadata is truthy. -/
def Version.strL (v : Version) : List Char :=
  intChars v.major ++ '.' :: intChars v.minor ++ '.' :: intChars v.patch
  ++ (if optTruthy v.prerelease then '-' :: (v.prerelease.getD "").data else [])
  ++ (if optTruthy v.metadata then '+' :: (v.metadata.getD "").data else [])

/-- `Version.__str__` as a string. -/
def Version.str (v : Version) : String := String.mk v.strL

/-- Python `<` on strings: lexicographic comparison by code point. -/
def lexLt : List Char → List Char → Bool
| _, [] => false
| [], _ :: _ => true
| a :: x, b :: y =>
  if a.toNat < b.toNat then true else if b.toNat < a.toNat then false else lexLt x y

/-- `Version.__lt__` (source lines 65-68): `str(self) < str(other)`. -/
def Version.lt (v w : Version) : Bool := lexLt v.strL w.strL

/-- `Version.bump` (source lines 70-86).  `BumpType` is a `str` enum with
values `"major"`, `"minor"`, `"patch"`; the comparisons in the source are
value comparisons, and any other tag raises `ValueError`.  The source
copies the model, increments the selected field, and if `clear_extras` is
set assigns the empty string (not `None`) to both extras. -/
def Version.bump (v : Version) (bump_type : String) (clear_extras : Bool) :
    Except String Version :=
  match (if bump_type = "major" then some { v with major := v.major + 1 }
         else if bump_type = "minor" then some { v with minor := v.minor + 1 }
         else if bump_type = "patch" then some { v with patch := v.patch + 1 }
         else none) with
  | some out =>
    .ok (if clear_extras then { out with metadata := some "", prerelease := some "" } else out)
  | none => .error ("unknown bump_type " ++ bump_type)

deriving instance DecidableEq for Except

/-! ### The operations on versions -/

/-- `validate` (source lines 122-125): false iff the tagged version's
prerelease field `is not None` and the two models differ. -/
def validate (tagged_version current_version : Version) : Bool :=
  if tagged_version.prerelease ≠ none ∧ current_version ≠ tagged_version then false
  else true

/-- `get_most_recent_tag` (source lines 22-27), as a function of the
`git describe --tags` output: parse it, and if the prerelease field is
truthy rewrite it to `post.<original>`. -/
def get_most_recent_tag (describe_output : String) : Except String Version :=
  (Version.parse describe_output).map (fun v =>
    if optTruthy v.prerelease then
      { v with prerelease := some ("post." ++ v.prerelease.getD "") }
    else v)

/-- Failure modes of `get_current_version`: the manifest/module mismatch
`ValueError`, or a `ValueError` propagated from `Version.parse`. -/
inductive CurrentVersionError where
| mismatch (python_version poetry_version : String)
| invalid (msg : String)
deriving DecidableEq

/-- `get_current_version` (source lines 89-98) as a function of the
version string recorded in `pyproject.toml` and the module constant
`utilities.__version__`: error if they differ, otherwise parse the shared
string. -/
def get_current_version (poetry_version py_version : String) :
    Except CurrentVersionError Version :=
  if poetry_version ≠ py_version then .error (.mismatch py_version poetry_version)
  else
    match Version.parse py_version with
    | .ok v => .ok v
    | .error e => .error (.invalid e)

/-! ### The `tag` command -/

/-- Observable outcome of the `tag` command: report that the tag already
matches (no tag made), reject with an exit code (no tag made), or create a
git tag with the given name. -/
inductive TagOutcome where
| alreadyMatches
| rejected (exitCode : Nat)
| created (tagName : String)
deriving DecidableEq

/-- The `tag` command (source lines 142-161), given the tag-derived
version and the current recorded version.  The `force` option is declared
by the source but never read in the body; it is kept as an argument to
make that observable. -/
def tagCmd ( force : Bool) (tagged_version current_version : Version) : TagOutcome :=
  if validate tagged_version current_version then .alreadyMatches
  else if optTruthy current_version.prerelease || optTruthy current_version.metadata then
    .rejected 2
  else .created current_version.str

/-! ### The `set` command -/

/-- Observable outcome of the `set` command: an uncaught `ValueError`
(from `Version.parse` or `Version.bump`), a `typer.Exit(2)` after printing
the given message, or normal completion with the final version and
whether the files were (re)written. -/
inductive SetOutcome where
| errorOut (msg : String)
| exit2 (msg : String)
| done (v : Version) (wrote : Bool)
deriving DecidableEq

/-- The message printed before the downgrade rejection (source line 204). -/
def downgradeMsg : String :=
  "Version you are setting is less than current version. Please use --force flag to force this change."

/-- The message printed before the overwrite rejection (source line 219). -/
def overwriteMsg : String :=
  "Current version has metadata or prerelease information that you are trying to replace, please use the --force to force"

/-- Step 1 of `set_version` (source lines 196-208): resolve the target
version.  `if new_version:` is Python truthiness, so `None` and `""` both
fall through to the current version; the literal `"git"` takes the
tag-derived version (no downgrade check); any other string is parsed and
rejected with exit code 2 when less than the current version and `--force`
is not set. -/
def resolveTarget (describe_output : String) (curr_version : Version)
    (new_version : Option String) ( force : Bool) : Except SetOutcome Version :=
  if optTruthy new_version then
    (if new_version.getD "" = "git" then
      match get_most_recent_tag describe_output with
      | .ok v => .ok v
      | .error e => .error (.errorOut e)
    else
      match Version.parse (new_version.getD "") with
      | .error e => .error (.errorOut e)
      | .ok v =>
        if v.lt curr_version ∧ force = false then .error (.exit2 downgradeMsg)
        else .ok v)
  else .ok curr_version

/-- Step 2 of `set_version` (source lines 210-211): bump when `--bump` was
given (a `ValueError` from `bump` propagates). -/
def applyBump (v : Version) (bump_type : Option String) (clear : Bool) :
    Except SetOutcome Version :=
  match bump_type with
  | some bt =>
    (match v.bump bt clear with
     | .ok w => .ok w
     | .error e => .error (.errorOut e))
  | none => .ok v

/-- Step 3 of `set_version` (source lines 213-221): when a prerelease or
metadata override was requested (`is not None`), apply both requested
values if the target's prerelease and metadata are both `None` or `--force`
is given, otherwise reject with exit code 2. -/
def applyExtras (v : Version) (prerelease metadata : Option String) ( force : Bool) :
    Except SetOutcome Version :=
  if prerelease ≠ none ∨ metadata ≠ none then
    if (v.prerelease = none ∧ v.metadata = none) ∨ force then
      .ok { v with prerelease := prerelease, metadata := metadata }
    else .error (.exit2 overwriteMsg)
  else .ok v

/-- The `set` command (source lines 164-228), given the `git describe`
output and the current recorded version.  `overwrite` decides whether
`write_new_version` runs (recorded in the outcome); `short` only selects
the printed format and does not affect the outcome. -/
def set_version (describe_output : String) (curr_version : Version)
    (new_version bump_type prerelease metadata : Option String)
    (overwrite force clear short : Bool) : SetOutcome :=
  match resolveTarget describe_output curr_version new_version force with
  | .error o => o
  | .ok v1 =>
    match applyBump v1 bump_type clear with
    | .error o => o
    | .ok v2 =>
      match applyExtras v2 prerelease metadata force with
      | .error o => o
      | .ok v3 => .done v3 overwrite

/-! ### Claim-side notions -/

/-- Lexicographic order on character lists by code point, stated
declaratively: `x` is a proper initial segment of `y`, or the two agree on
a common initial segment and then `x` has the smaller character. -/
def LexLtP (x y : List Char) : Prop :=
  (∃ w, w ≠ [] ∧ y = x ++ w) ∨
  ∃ u a b xs ys, x = u ++ a :: xs ∧ y = u ++ b :: ys ∧ a.toNat < b.toNat

/-- Replace an empty-string prerelease/metadata field by `none` (the only
normalisation `Version.parse` applies to a reparsed rendering). -/
def normExtras (v : Version) : Version :=
  { v with
    prerelease := if v.prerelease = some "" then none else v.prerelease,
    metadata := if v.metadata = some "" then none else v.metadata }

/-- The versions producible by the program: outputs of `Version.parse` and
of `Version.bump` applied to producible versions. -/
inductive Producible : Version → Prop where
| ofParse : ∀ (s : String) (v : Version), Version.parse s = .ok v → Producible v
| ofBump : ∀ (v w : Version) (bump_type : String) (clear_extras : Bool),
    Producible v → Version.bump v bump_type clear_extras = .ok w → Producible w

/-- `Version.parse` raised (a `ValueError`). -/
def parseErrs (s : String) : Bool :=
  match Version.parse s with
  | .error _ => true
  | .ok _ => false

/-- The outcome of `get_current_version` is the manifest/module
consistency error (as opposed to success or a parse error). -/
def isMismatchError : Except CurrentVersionError Version → Bool
| .error (.mismatch _ _) => true
| _ => false

/-- Language of one numeric component `(0|[1-9]\d*)`: the literal `0`, or
a nonempty digit string not starting with `0`. -/
def NumLang (A : List Char) : Prop :=
  A = ['0'] ∨ (A ≠ [] ∧ (∀ c ∈ A, c.isDigit = true) ∧ A.head? ≠ some '0')

/-- Language of one metadata identifier `[0-9a-zA-Z-]+`. -/
def WOk (x : List Char) : Prop := x ≠ [] ∧ ∀ c ∈ x, isIdChar c = true

/-- Language of one prerelease identifier
`(0|[1-9]\d*|\d*[a-zA-Z-][0-9a-zA-Z-]*)`: a nonempty string of class
characters which, when purely numeric, has no leading zero. -/
def IdOk (x : List Char) : Prop :=
  x ≠ [] ∧ (∀ c ∈ x, isIdChar c = true) ∧ ((∀ c ∈ x, c.isDigit = true) → NumLang x)

/-- Dot-separated nonempty chains whose components satisfy `L`. -/
inductive DotChain (L : List Char → Prop) : List Char → Prop where
| single : ∀ x, L x → DotChain L x
| cons : ∀ x y, L x → DotChain L y → DotChain L (x ++ '.' :: y)

/-- Language of the prerelease group. -/
def PreLang : List Char → Prop := DotChain IdOk

/-- Language of the metadata group. -/
def MetaLang : List Char → Prop := DotChain WOk

/-- The declarative language of `version_regex` as the code has it: three
numeric components, an optional `-`-introduced prerelease chain, an
optional metadata chain introduced by `+` or `-`, and an optional single
trailing newline (accepted because Python's `$` matches before it). -/
def CodeGrammar (s : String) : Prop :=
  ∃ A B C preP metaP nl,
    s.data = A ++ '.' :: B ++ '.' :: C ++ preP ++ metaP ++ nl ∧
    NumLang A ∧ NumLang B ∧ NumLang C ∧
    (preP = [] ∨ ∃ p, preP = '-' :: p ∧ PreLang p) ∧
    (metaP = [] ∨ ∃ sep m, (sep = '+' ∨ sep = '-') ∧ metaP = sep :: m ∧ MetaLang m) ∧
    (nl = [] ∨ nl = ['\n'])

/-- Modelled from the spec: checker for dot-separated nonempty
alphanumeric-or-hyphen identifiers (the spec's PRERELEASE/METADATA shape).
The flag records whether at least one identifier character has been seen
since the start or the last dot. -/
def specIdsFrom : List Char → Bool → Bool
| [], inId => inId
| c :: r, inId =>
  if isIdChar c then specIdsFrom r true
  else if c = '.' ∧ inId then specIdsFrom r false
  else false

/-- Split a character list at the first `+`. -/
def splitAtPlus : List Char → List Char × Option (List Char)
| [] => ([], none)
| c :: r =>
  if c = '+' then ([], some r)
  else (let p := splitAtPlus r; (c :: p.1, p.2))

/-- Modelled from the spec: the tail of the spec's grammar
`[-PRERELEASE][+METADATA]`, with prerelease introduced only by `-` and
metadata only by `+`. -/
def specTail (t : List Char) : Bool :=
  match t with
  | [] => true
  | '-' :: q =>
    (match splitAtPlus q with
     | (p, none) => specIdsFrom p false
     | (p, some m) => specIdsFrom p false && specIdsFrom m false)
  | '+' :: m => specIdsFrom m false
  | _ => false

/-- Modelled from the spec: the grammar
`MAJOR.MINOR.PATCH[-PRERELEASE][+METADATA]` as the claim states it
(numeric components with no leading zero, prerelease introduced only by
`-`, metadata only by `+`). -/
def specGrammarB (s : String) : Bool :=
  match numSplit s.data with
  | some (_, '.' :: r1) =>
    (match numSplit r1 with
     | some (_, '.' :: r2) =>
       (match numSplit r2 with
        | some (_, t) => specTail t
        | none => false)
     | _ => false)
  | _ => false

/-- The next character (if any) fails the predicate: the run of `p` cannot
extend into this suffix. -/
def notStarts (p : Char → Bool) : List Char → Prop
| [] => True
| c :: _ => p c = false

/-- The suffix starts with a character that can extend neither an
identifier nor a dotted chain: no prerelease/metadata matching can consume
into it. -/
def HardBlocked : List Char → Prop
| [] => True
| c :: _ => isIdChar c = false ∧ c ≠ '.'

/-- Consumption shapes of the star `(?:\.ID)*`: empty, or a dot followed
by an identifier and another such shape. -/
inductive TailChain : List Char → Prop where
| nil : TailChain []
| cons : ∀ x y, IdOk x → TailChain y → TailChain ('.' :: (x ++ y))

/-- The captured-group content of an `Optional[str]` field as
`Version.__str__` renders it: `None` and `""` render nothing, a nonempty
string renders its characters. -/
def capPre : Option String → Option (List Char)
| none => none
| some p => if p = "" then none else some p.data

/-- The part of `Version.__str__` after `MAJOR.MINOR.PATCH`. -/
def strTailL (v : Version) : List Char :=
  (if optTruthy v.prerelease then '-' :: (v.prerelease.getD "").data else [])
  ++ (if optTruthy v.metadata then '+' :: (v.metadata.getD "").data else [])

/-- Rendering of a pair of captured groups as a version-string tail. -/
def tailRender (pre meta : Option (List Char)) : List Char :=
  (match pre with | some p => '-' :: p | none => [])
  ++ (match meta with | some m => '+' :: m | none => [])

/-- Invariant of every version the program constructs: non-negative
numeric fields, and a `__str__` tail that re-matches to exactly the
(empty-string-normalised) extras. -/
def GoodVersion (v : Version) : Prop :=
  0 ≤ v.major ∧ 0 ≤ v.minor ∧ 0 ≤ v.patch ∧
  tailScan (strTailL v) = some (capPre v.prerelease, capPre v.metadata)

/-! ### Theorems -/

theorem lexLt_cons_iff (a : Char) (xs ys : List Char) :
    LexLtP xs ys ↔ LexLtP (a :: xs) (a :: ys) := by
  constructor
  · rintro (⟨w, hw, rfl⟩ | ⟨u, x, y, us, vs, rfl, rfl, hxy⟩)
    · exact Or.inl ⟨w, hw, rfl⟩
    · exact Or.inr ⟨a :: u, x, y, us, vs, rfl, rfl, hxy⟩
  · rintro (⟨w, hw, h⟩ | ⟨u, x, y, us, vs, hx, hy, hxy⟩)
    · exact Or.inl ⟨w, hw, by simpa using h⟩
    · cases u with
      | nil =>
        simp only [List.nil_append, List.cons.injEq] at hx hy
        rw [← hx.1, ← hy.1] at hxy
        exact absurd hxy (Nat.lt_irrefl _)
      | cons c u =>
        simp only [List.cons_append, List.cons.injEq] at hx hy
        exact Or.inr ⟨u, x, y, us, vs, hx.2, hy.2, hxy⟩

theorem not_lexLtP_nil (x : List Char) : ¬ LexLtP x [] := by
  rintro (⟨w, hw, h⟩ | ⟨u, c, d, us, vs, _, hy, _⟩)
  · exact hw (List.append_eq_nil.mp h.symm).2
  · exact absurd hy (by simp)

theorem lexLt_iff (x : List Char) : ∀ y, lexLt x y = true ↔ LexLtP x y := by
  induction x with
  | nil =>
    intro y
    cases y with
    | nil =>
      constructor
      · intro h; exact absurd h (by decide)
      · intro h; exact absurd h (not_lexLtP_nil [])
    | cons b ys =>
      constructor
      · intro _; exact Or.inl ⟨b :: ys, by simp, rfl⟩
      · intro _; rfl
  | cons a xs ih =>
    intro y
    cases y with
    | nil =>
      constructor
      · intro h; simp [lexLt] at h
      · intro h; exact absurd h (not_lexLtP_nil (a :: xs))
    | cons b ys =>
      by_cases h1 : a.toNat < b.toNat
      · simp only [lexLt, if_pos h1]
        constructor
        · intro _; exact Or.inr ⟨[], a, b, xs, ys, rfl, rfl, h1⟩
        · intro _; trivial
      · by_cases h2 : b.toNat < a.toNat
        · simp only [lexLt, if_neg h1, if_pos h2]
          constructor
          · intro h; exact absurd h (by simp)
          · rintro (⟨w, hw, h⟩ | ⟨u, c, d, us, vs, hx, hy, hcd⟩)
            · simp only [List.cons_append, List.cons.injEq] at h
              rw [h.1] at h2
              exact absurd h2 (Nat.lt_irrefl _)
            · cases u with
              | nil =>
                simp only [List.nil_append, List.cons.injEq] at hx hy
                rw [← hx.1, ← hy.1] at hcd
                exact absurd (Nat.lt_trans hcd h2) (Nat.lt_irrefl _)
              | cons e u =>
                simp only [List.cons_append, List.cons.injEq] at hx hy
                have hab : a = b := hx.1.trans hy.1.symm
                rw [hab] at h2
                exact absurd h2 (Nat.lt_irrefl _)
        · have hval : a.toNat = b.toNat := Nat.le_antisymm (Nat.not_lt.mp h2) (Nat.not_lt.mp h1)
          have hab : a = b := Char.ext (UInt32.ext hval)
          subst hab
          simp only [lexLt, if_neg h1, if_neg h2]
          exact (ih ys).trans (lexLt_cons_iff a xs ys)

/-- C4: `less_than` (the source `__lt__`) holds exactly when the full
formatted rendering of the first version is lexicographically smaller, by
code point, than that of the second (raw string comparison, not field-wise
semver precedence). -/
theorem claim_C4_less_than (a b : Version) :
    Version.lt a b = true ↔ LexLtP a.strL b.strL :=
  lexLt_iff a.strL b.strL

/-- C1 (counterexample): the claim states `validate t c` is false iff
`t.prerelease` is non-empty and `c ≠ t`; but the source tests
`is not None`, so a present-but-empty prerelease (`Version(1,0,0,"")`,
whose prerelease is `""`, which is not non-empty) with `c ≠ t` also
yields false, contradicting the claimed iff at this input. -/
theorem claim_C1_counterexample :
    ¬ (validate { major := 1, minor := 0, patch := 0, prerelease := some "", metadata := some "" }
         { major := 2, minor := 0, patch := 0, prerelease := some "", metadata := some "" } = false
       ↔ (optTruthy (Version.prerelease
             { major := 1, minor := 0, patch := 0, prerelease := some "", metadata := some "" }) = true
           ∧ ({ major := 2, minor := 0, patch := 0, prerelease := some "", metadata := some "" } : Version)
             ≠ { major := 1, minor := 0, patch := 0, prerelease := some "", metadata := some "" })) := by
  decide

/-- C1 (amended): `validate t c` is false iff `t.prerelease` is present
(not `None`; an empty string counts as present) and `c ≠ t`
(all-fields equality); the two examples of the claim hold as stated. -/
theorem claim_C1_amended :
    (∀ t c : Version, validate t c = false ↔ (t.prerelease ≠ none ∧ c ≠ t)) ∧
    validate { major := 1, minor := 0, patch := 0, prerelease := some "rc.1", metadata := some "" }
      { major := 1, minor := 0, patch := 0, prerelease := some "", metadata := some "" } = false ∧
    validate { major := 1, minor := 0, patch := 0, prerelease := some "", metadata := some "" }
      { major := 1, minor := 0, patch := 0, prerelease := some "", metadata := some "" } = true := by
  refine ⟨fun t c => ?_, by decide, by decide⟩
  by_cases h : t.prerelease ≠ none ∧ c ≠ t
  · simp [validate, h]
  · simp only [validate, if_neg h]
    constructor
    · intro h1; exact absurd h1 (by decide)
    · intro h1; exact absurd h1 h

/-- C5: `bump` increments exactly the chosen numeric field, leaves the
other two unchanged, resets both extras to the empty string when
`clear_extras` is set, and raises for any tag other than the three
`BumpType` values (which are the strings `"major"`, `"minor"`,
`"patch"`). -/
theorem claim_C5_bump (v : Version) (clear_extras : Bool) :
    v.bump "major" clear_extras = .ok { v with
      major := v.major + 1,
      prerelease := if clear_extras then some "" else v.prerelease,
      metadata := if clear_extras then some "" else v.metadata } ∧
    v.bump "minor" clear_extras = .ok { v with
      minor := v.minor + 1,
      prerelease := if clear_extras then some "" else v.prerelease,
      metadata := if clear_extras then some "" else v.metadata } ∧
    v.bump "patch" clear_extras = .ok { v with
      patch := v.patch + 1,
      prerelease := if clear_extras then some "" else v.prerelease,
      metadata := if clear_extras then some "" else v.metadata } ∧
    (∀ s : String, s ≠ "major" → s ≠ "minor" → s ≠ "patch" →
      v.bump s clear_extras = .error ("unknown bump_type " ++ s)) := by
  refine ⟨?_, ?_, ?_, ?_⟩
  · cases clear_extras <;> rfl
  · cases clear_extras <;> rfl
  · cases clear_extras <;> rfl
  · intro s h1 h2 h3
    simp [Version.bump, h1, h2, h3]

/-- C5 (witness): the theorem applied at a concrete version, with
`clear_extras = true` and the unknown tag `"flurb"`. -/
theorem claim_C5_bump_witness :
    Version.bump { major := 1, minor := 2, patch := 3, prerelease := some "a", metadata := none }
      "flurb" true = .error ("unknown bump_type " ++ "flurb") :=
  (claim_C5_bump { major := 1, minor := 2, patch := 3, prerelease := some "a", metadata := none }
    true).2.2.2 "flurb" (by decide) (by decide) (by decide)

/-- C6: the claim says a prerelease/metadata current version is rejected
"unless an override/force is given", and the source's own message
("Can't tag ... without --force") promises the same; but the `force`
parameter is never read in the body, so even with `force = true` the
command exits with code 2 and creates no tag.  Evaluation at the failing
input: tag-derived `1.0.0-post.rc.1`, current `1.0.0-rc.1`, force given. -/
theorem claim_C6_tag :
    tagCmd true
      { major := 1, minor := 0, patch := 0, prerelease := some "post.rc.1", metadata := some "" }
      { major := 1, minor := 0, patch := 0, prerelease := some "rc.1", metadata := some "" }
      = .rejected 2 := by
  decide

/-- C7 (counterexample): a target resolved through the tag-derivation
keyword `"git"` is never checked against the current version: here the
tag-derived `0.9.0` is lexically less than the current `1.0.0`, `force`
is not set, yet the command completes and performs the file writes
(`overwrite` was requested) instead of rejecting with exit code 2. -/
theorem claim_C7_counterexample :
    set_version "0.9.0" { major := 1, minor := 0, patch := 0, prerelease := none, metadata := none }
      (some "git") none none none true false false false
      = .done { major := 0, minor := 9, patch := 0, prerelease := none, metadata := none } true ∧
    Version.lt { major := 0, minor := 9, patch := 0, prerelease := none, metadata := none }
      { major := 1, minor := 0, patch := 0, prerelease := none, metadata := none } = true := by
  constructor
  · decide
  · decide

/-- C7 (amended): the downgrade check applies only to a target given as an
explicit version string (not the `"git"` keyword, not the current-version
default): in that case, a parsed target lexically less than the current
version without `--force` exits with code 2 before any write. -/
theorem claim_C7_amended (describe_output : String) (curr : Version) (s : String) (v : Version)
    (bt pre meta : Option String) (ow clear short : Bool) :
    s ≠ "" → s ≠ "git" → Version.parse s = .ok v → Version.lt v curr = true →
    set_version describe_output curr (some s) bt pre meta ow false clear short
      = .exit2 downgradeMsg := by
  intro h1 h2 hparse hlt
  simp [set_version, resolveTarget, optTruthy, h1, h2, hparse, hlt]

/-- C7 (witness): the amended theorem applied at the explicit target
`0.9.0` with current version `1.0.0`. -/
theorem claim_C7_amended_witness :
    set_version "" { major := 1, minor := 0, patch := 0, prerelease := none, metadata := none }
      (some "0.9.0") none none none false false false false = .exit2 downgradeMsg :=
  claim_C7_amended "" { major := 1, minor := 0, patch := 0, prerelease := none, metadata := none }
    "0.9.0" { major := 0, minor := 9, patch := 0, prerelease := none, metadata := none }
    none none none false false false (by decide) (by decide) (by decide) (by decide)

/-- C8 (counterexample): the claim rejects an override only when the
version being modified carries a non-empty prerelease or metadata; but
the source tests `is None`, and a bump with `--clear` leaves both extras
as the empty string (present but empty), so the override of this target
is rejected with exit code 2 although neither field is non-empty and the
claim says the requested values should be applied. -/
theorem claim_C8_counterexample :
    set_version "" { major := 1, minor := 0, patch := 0, prerelease := none, metadata := none }
      none (some "patch") (some "rc.1") none false false true false = .exit2 overwriteMsg ∧
    Version.bump { major := 1, minor := 0, patch := 0, prerelease := none, metadata := none }
      "patch" true
      = .ok { major := 1, minor := 0, patch := 1, prerelease := some "", metadata := some "" } ∧
    optTruthy (some "") = false := by
  refine ⟨by decide, by decide, by decide⟩

/-- C8 (amended): when a prerelease or metadata override is requested, the
`set` command applies both requested values to the resolved (and possibly
bumped) target iff the target's prerelease and metadata are both `None`
(an empty string counts as present and blocks the override) or `--force`
is set, and otherwise exits with code 2. -/
theorem claim_C8_amended (describe_output : String) (curr : Version)
    (nv bt pre meta : Option String) (ow force clear short : Bool) (v1 v2 : Version) :
    resolveTarget describe_output curr nv force = .ok v1 →
    applyBump v1 bt clear = .ok v2 →
    (pre ≠ none ∨ meta ≠ none) →
    set_version describe_output curr nv bt pre meta ow force clear short =
      (if (v2.prerelease = none ∧ v2.metadata = none) ∨ force = true
       then .done { v2 with prerelease := pre, metadata := meta } ow
       else .exit2 overwriteMsg) := by
  intro h1 h2 h3
  simp only [set_version, h1, h2, applyExtras, if_pos h3]
  by_cases h : (v2.prerelease = none ∧ v2.metadata = none) ∨ force = true
  · simp [h]
  · simp [h]

/-- C8 (witness): the amended theorem applied with a current version whose
prerelease is present and `force` unset: the override is rejected. -/
theorem claim_C8_amended_witness :
    set_version "x" { major := 1, minor := 0, patch := 0, prerelease := some "rc.1", metadata := none }
      none none (some "z") none false false false false = .exit2 overwriteMsg := by
  have h := claim_C8_amended "x"
    { major := 1, minor := 0, patch := 0, prerelease := some "rc.1", metadata := none }
    none none (some "z") none false false false false
    { major := 1, minor := 0, patch := 0, prerelease := some "rc.1", metadata := none }
    { major := 1, minor := 0, patch := 0, prerelease := some "rc.1", metadata := none }
    (by decide) (by decide) (Or.inl (by decide))
  exact h.trans (by decide)

/-- C9: reading the recorded version fails with the consistency error
exactly when the manifest string and the module constant differ, and
returns the parsed shared string when they agree (a parse `ValueError` on
the shared string is a different error class and propagates unchanged). -/
theorem claim_C9_current_version (poetry_version py_version : String) :
    (isMismatchError (get_current_version poetry_version py_version) = true
      ↔ poetry_version ≠ py_version) ∧
    (∀ v, poetry_version = py_version → Version.parse py_version = .ok v →
      get_current_version poetry_version py_version = .ok v) := by
  constructor
  · by_cases h : poetry_version = py_version
    · subst h
      simp only [get_current_version]
      rw [if_neg (by simp)]
      cases hp : Version.parse poetry_version <;> simp [isMismatchError]
    · simp [get_current_version, h, isMismatchError]
  · intro v hpq hv
    subst hpq
    simp [get_current_version, hv]

/-- C9 (witness): the theorem applied at the agreeing pair `"1.2.3"`. -/
theorem claim_C9_current_version_witness :
    get_current_version "1.2.3" "1.2.3"
      = .ok { major := 1, minor := 2, patch := 3, prerelease := none, metadata := none } :=
  (claim_C9_current_version "1.2.3" "1.2.3").2
    { major := 1, minor := 2, patch := 3, prerelease := none, metadata := none } rfl (by decide)

/-- C2 (counterexample): `bump` with `clear_extras` produces a value with
empty-string extras (a value "produced by bump"), whose rendering drops
them; reparsing yields `None` extras, which pydantic equality
distinguishes from empty strings, so `parse(format(v)) ≠ v`. -/
theorem claim_C2_counterexample :
    Version.parse "1.2.2"
      = .ok { major := 1, minor := 2, patch := 2, prerelease := none, metadata := none } ∧
    Version.bump { major := 1, minor := 2, patch := 2, prerelease := none, metadata := none }
      "patch" true
      = .ok { major := 1, minor := 2, patch := 3, prerelease := some "", metadata := some "" } ∧
    Version.parse
        (Version.str { major := 1, minor := 2, patch := 3, prerelease := some "", metadata := some "" })
      ≠ .ok { major := 1, minor := 2, patch := 3, prerelease := some "", metadata := some "" } := by
  refine ⟨by decide, by decide, by decide⟩

/-- C3 (counterexample): the claimed iff fails in both directions.
`"1.2.3-01+m"` matches the claimed grammar (prerelease identifier `01`,
metadata `m` after `+`) yet `parse` raises, because the regex prerelease
alternative forbids a leading zero on a numeric identifier; and
`"1.2.3\n"` is outside the claimed grammar yet parses, because Python's
`$` also matches before a trailing newline (and the regex accepts
`-`-introduced metadata, as in `"1.2.3-01"`). -/
theorem claim_C3_counterexample :
    specGrammarB "1.2.3-01+m" = true ∧
    startsWithV "1.2.3-01+m" = false ∧
    Version.parse "1.2.3-01+m" = .error ("Unknown version string: " ++ "1.2.3-01+m") ∧
    specGrammarB "1.2.3\n" = false ∧
    Version.parse "1.2.3\n"
      = .ok { major := 1, minor := 2, patch := 3, prerelease := none, metadata := none } ∧
    Version.parse "1.2.3-01"
      = .ok { major := 1, minor := 2, patch := 3, prerelease := none, metadata := some "01" } := by
  refine ⟨by decide, by decide, by decide, by decide, by decide, by decide⟩

/-! ### Character classes -/

theorem uint32_le_iff {a b : UInt32} : a ≤ b ↔ a.toNat ≤ b.toNat := Iff.rfl

theorem isDigit_iff {c : Char} : c.isDigit = true ↔ 48 ≤ c.toNat ∧ c.toNat ≤ 57 := by
  simp only [Char.isDigit, ge_iff_le, Bool.and_eq_true, decide_eq_true_eq]
  exact Iff.rfl

theorem isAlpha_iff {c : Char} :
    c.isAlpha = true ↔ (65 ≤ c.toNat ∧ c.toNat ≤ 90) ∨ (97 ≤ c.toNat ∧ c.toNat ≤ 122) := by
  simp only [Char.isAlpha, Char.isUpper, Char.isLower, ge_iff_le, Bool.or_eq_true,
    Bool.and_eq_true, decide_eq_true_eq]
  exact Iff.rfl

theorem char_eq_of_toNat {a b : Char} (h : a.toNat = b.toNat) : a = b :=
  Char.ext (UInt32.ext h)

theorem digitChar_digitVal {c : Char} (h : c.isDigit = true) : digitChar (digitVal c) = c := by
  have h2 := isDigit_iff.mp h
  unfold digitChar digitVal
  rw [Nat.add_sub_cancel' h2.1]
  exact Char.ofNat_toNat c

theorem isAlpha_not_digit {c : Char} (h : c.isAlpha = true) : c.isDigit = false := by
  rw [← Bool.not_eq_true]
  intro hd
  have h3 := isDigit_iff.mp hd
  rcases isAlpha_iff.mp h with h1 | h1 <;> omega

theorem isIdChar_of_digit {c : Char} (h : c.isDigit = true) : isIdChar c = true := by
  simp [isIdChar, h]

theorem idChar_ne {c : Char} (h : isIdChar c = true) : c ≠ '.' ∧ c ≠ '+' ∧ c ≠ '\n' := by
  refine ⟨?_, ?_, ?_⟩ <;> (rintro rfl; exact absurd h (by decide))

theorem digitVal_lt {c : Char} (h : c.isDigit = true) : digitVal c < 10 := by
  have h2 := isDigit_iff.mp h
  unfold digitVal
  omega

theorem digitVal_ne_zero {c : Char} (h : c.isDigit = true) (h0 : c ≠ '0') : digitVal c ≠ 0 := by
  have h2 := isDigit_iff.mp h
  have h48 : c.toNat ≠ 48 := fun he => h0 (char_eq_of_toNat (by rw [he]; rfl))
  unfold digitVal
  omega

theorem digitVal_digitChar {d : Nat} (h : d < 10) : digitVal (digitChar d) = d := by
  interval_cases d <;> decide

theorem digitChar_isDigit {d : Nat} (h : d < 10) : (digitChar d).isDigit = true := by
  interval_cases d <;> decide

theorem digitChar_ne_zeroChar {d : Nat} (h : d < 10) (hd : d ≠ 0) : digitChar d ≠ '0' := by
  interval_cases d
  · exact absurd rfl hd
  all_goals decide

/-! ### Runs (`span`) -/

theorem takeWhile_all_append (p : Char → Bool) :
    ∀ (x u : List Char), (∀ c ∈ x, p c = true) → (x ++ u).takeWhile p = x ++ u.takeWhile p := by
  intro x
  induction x with
  | nil => intro u _; rfl
  | cons c r ih =>
    intro u hx
    have hc : p c = true := hx c (by simp)
    simp only [List.cons_append, List.takeWhile_cons_of_pos hc]
    rw [ih u (fun d hd => hx d (by simp [hd]))]

theorem dropWhile_all_append (p : Char → Bool) :
    ∀ (x u : List Char), (∀ c ∈ x, p c = true) → (x ++ u).dropWhile p = u.dropWhile p := by
  intro x
  induction x with
  | nil => intro u _; rfl
  | cons c r ih =>
    intro u hx
    have hc : p c = true := hx c (by simp)
    simp only [List.cons_append, List.dropWhile_cons_of_pos hc]
    exact ih u (fun d hd => hx d (by simp [hd]))

theorem takeWhile_notStarts (p : Char → Bool) {u : List Char} (h : notStarts p u) :
    u.takeWhile p = [] := by
  cases u with
  | nil => rfl
  | cons c r =>
    have hc : p c = false := h
    simp [List.takeWhile_cons, hc]

theorem dropWhile_notStarts (p : Char → Bool) {u : List Char} (h : notStarts p u) :
    u.dropWhile p = u := by
  cases u with
  | nil => rfl
  | cons c r =>
    have hc : p c = false := h
    simp [List.dropWhile_cons, hc]

theorem span_exact (p : Char → Bool) {x u : List Char}
    (hx : ∀ c ∈ x, p c = true) (hu : notStarts p u) : (x ++ u).span p = (x, u) := by
  rw [List.span_eq_take_drop, takeWhile_all_append p x u hx, dropWhile_all_append p x u hx,
    takeWhile_notStarts p hu, dropWhile_notStarts p hu, List.append_nil]

theorem span_append_blocked (p : Char → Bool) {u : List Char} (hu : notStarts p u) :
    ∀ r, (r ++ u).span p = ((r.span p).1, (r.span p).2 ++ u) := by
  intro r
  induction r with
  | nil =>
    simp only [List.nil_append, List.span_eq_take_drop, takeWhile_notStarts p hu,
      dropWhile_notStarts p hu]
    rfl
  | cons c r ih =>
    by_cases hc : p c = true
    · simp only [List.cons_append, List.span_eq_take_drop] at *
      simp only [List.takeWhile_cons_of_pos hc, List.dropWhile_cons_of_pos hc]
      simp only [List.span_eq_take_drop, Prod.mk.injEq] at ih ⊢
      exact ⟨by rw [ih.1], ih.2⟩
    · have hc' : p c = false := by simpa using hc
      simp only [List.cons_append, List.span_eq_take_drop, List.takeWhile_cons, hc',
        List.dropWhile_cons, Bool.false_eq_true, if_false]

/-! ### The numeric groups -/

theorem numSplit_append {A : List Char} (hA : NumLang A) {u : List Char}
    (hu : notStarts Char.isDigit u) : numSplit (A ++ u) = some (A, u) := by
  rcases hA with rfl | ⟨hne, hdig, hhead⟩
  · simp [numSplit]
  · obtain ⟨c, r, rfl⟩ := List.exists_cons_of_ne_nil hne
    have hc : c.isDigit = true := hdig c (by simp)
    have hc0 : c ≠ '0' := by
      intro h
      exact hhead (by rw [h]; rfl)
    have hr : ∀ d ∈ r, d.isDigit = true := fun d hd => hdig d (by simp [hd])
    simp only [List.cons_append, numSplit, if_neg hc0, if_pos hc,
      span_exact Char.isDigit hr hu]

theorem numSplit_sound {s A r : List Char} (h : numSplit s = some (A, r)) :
    s = A ++ r ∧ NumLang A := by
  cases s with
  | nil => exact absurd h (by simp [numSplit])
  | cons c t =>
    by_cases hc0 : c = '0'
    · subst hc0
      simp [numSplit] at h
      obtain ⟨h1, h2⟩ := h
      subst h1
      subst h2
      exact ⟨rfl, Or.inl rfl⟩
    · by_cases hc : c.isDigit = true
      · simp [numSplit, hc0, hc] at h
        obtain ⟨h1, h2⟩ := h
        subst h1
        subst h2
        constructor
        · simp [List.takeWhile_append_dropWhile]
        · refine Or.inr ⟨by simp, ?_, ?_⟩
          · intro d hd
            rcases List.mem_cons.mp hd with rfl | hd'
            · exact hc
            · exact List.mem_takeWhile_imp hd'
          · simpa using hc0
      · have hc' : c.isDigit = false := by simpa using hc
        simp [numSplit, hc0, hc'] at h
/-! ### Decimal renderings -/

theorem natCharsAux_eq :
    ∀ f n, n ≤ f → natCharsAux f n = (Nat.digits 10 n).reverse.map digitChar := by
  intro f
  induction f with
  | zero =>
    intro n hn
    have h0 : n = 0 := Nat.le_zero.mp hn
    subst h0
    simp [natCharsAux]
  | succ f ih =>
    intro n hn
    by_cases h0 : n = 0
    · subst h0; simp [natCharsAux]
    · have hpos : 0 < n := Nat.pos_of_ne_zero h0
      have hdiv : n / 10 ≤ f := by
        have := Nat.div_lt_self hpos (by norm_num : 1 < 10)
        omega
      simp only [natCharsAux, if_neg h0]
      rw [ih (n / 10) hdiv, Nat.digits_def' (by norm_num : (1:ℕ) < 10) hpos]
      simp

theorem natChars_eq (n : Nat) :
    natChars n = if n = 0 then ['0'] else (Nat.digits 10 n).reverse.map digitChar := by
  unfold natChars
  by_cases h : n = 0
  · simp [h]
  · simp only [if_neg h]
    exact natCharsAux_eq (n + 1) n (Nat.le_succ n)

theorem natChars_ne_nil (n : Nat) : natChars n ≠ [] := by
  rw [natChars_eq]
  by_cases h : n = 0
  · simp [h]
  · simp only [if_neg h, ne_eq, List.map_eq_nil_iff, List.reverse_eq_nil_iff,
      Nat.digits_eq_nil_iff_eq_zero]
    exact h

theorem natChars_all_digit (n : Nat) : ∀ c ∈ natChars n, c.isDigit = true := by
  intro c hc
  rw [natChars_eq] at hc
  by_cases h : n = 0
  · rw [if_pos h] at hc
    simp only [List.mem_singleton] at hc
    subst hc
    decide
  · rw [if_neg h] at hc
    simp only [List.mem_map, List.mem_reverse] at hc
    obtain ⟨d, hd, rfl⟩ := hc
    exact digitChar_isDigit (Nat.digits_lt_base (by norm_num) hd)

theorem natChars_head_ne_zero {n : Nat} (h : n ≠ 0) : (natChars n).head? ≠ some '0' := by
  rw [natChars_eq, if_neg h]
  have hne : Nat.digits 10 n ≠ [] := Nat.digits_ne_nil_iff_ne_zero.mpr h
  rw [List.head?_map, List.head?_reverse, List.getLast?_eq_getLast _ hne]
  simp only [Option.map_some', ne_eq, Option.some.injEq]
  exact digitChar_ne_zeroChar (Nat.digits_lt_base (by norm_num) (List.getLast_mem hne))
    (Nat.getLast_digit_ne_zero 10 h)

theorem natChars_numLang (n : Nat) : NumLang (natChars n) := by
  by_cases h : n = 0
  · subst h
    exact Or.inl (by rw [natChars_eq]; rfl)
  · exact Or.inr ⟨natChars_ne_nil n, natChars_all_digit n, natChars_head_ne_zero h⟩

theorem natChars_roundtrip {A : List Char} (hA : NumLang A) : natChars (digitsVal A) = A := by
  rcases hA with rfl | ⟨hne, hdig, hhead⟩
  · decide
  · have hL1 : ∀ l ∈ (A.map digitVal).reverse, l < 10 := by
      intro l hl
      simp only [List.mem_reverse, List.mem_map] at hl
      obtain ⟨c, hc, rfl⟩ := hl
      exact digitVal_lt (hdig c hc)
    have hLne : (A.map digitVal).reverse ≠ [] := by
      simp only [ne_eq, List.reverse_eq_nil_iff, List.map_eq_nil_iff]
      exact hne
    have hL2 : ∀ hh : (A.map digitVal).reverse ≠ [], ((A.map digitVal).reverse).getLast hh ≠ 0 := by
      intro hh
      obtain ⟨c, r, rfl⟩ := List.exists_cons_of_ne_nil hne
      have hc0 : c ≠ '0' := fun he => hhead (by rw [he]; rfl)
      have h1 : (((c :: r).map digitVal).reverse).getLast? = some (digitVal c) := by
        rw [List.getLast?_reverse]
        simp
      rw [List.getLast?_eq_getLast _ hh, Option.some.injEq] at h1
      rw [h1]
      exact digitVal_ne_zero (hdig c (by simp)) hc0
    have hdg : Nat.digits 10 (Nat.ofDigits 10 ((A.map digitVal).reverse))
        = (A.map digitVal).reverse :=
      Nat.digits_ofDigits 10 (by norm_num) _ hL1 hL2
    have hnz : digitsVal A ≠ 0 := by
      intro h0
      apply hLne
      have : Nat.digits 10 (digitsVal A) = (A.map digitVal).reverse := hdg
      rw [h0] at this
      simpa using this.symm
    rw [natChars_eq, if_neg hnz]
    show (Nat.digits 10 (Nat.ofDigits 10 ((A.map digitVal).reverse))).reverse.map digitChar = A
    rw [hdg, List.reverse_reverse, List.map_map]
    have hmap : A.map (digitChar ∘ digitVal) = A.map id :=
      List.map_congr_left (fun c hc => digitChar_digitVal (hdig c hc))
    rw [hmap, List.map_id]

theorem digitsVal_natChars (n : Nat) : digitsVal (natChars n) = n := by
  by_cases h : n = 0
  · subst h; decide
  · unfold digitsVal
    rw [natChars_eq, if_neg h, List.map_map]
    have hmap : (Nat.digits 10 n).reverse.map (digitVal ∘ digitChar)
        = (Nat.digits 10 n).reverse.map id := by
      apply List.map_congr_left
      intro d hd
      exact digitVal_digitChar (Nat.digits_lt_base (by norm_num) (List.mem_reverse.mp hd))
    rw [hmap, List.map_id, List.reverse_reverse]
    exact Nat.ofDigits_digits 10 n

/-! ### The metadata group -/

theorem metaLang_cons {c : Char} (hc : isIdChar c = true) {w : List Char} (hw : MetaLang w) :
    MetaLang (c :: w) := by
  induction hw with
  | single x hx =>
    exact DotChain.single (c :: x) ⟨by simp, by
      intro d hd
      rcases List.mem_cons.mp hd with rfl | hd'
      · exact hc
      · exact hx.2 d hd'⟩
  | cons x y hx _ _ =>
    exact DotChain.cons (c :: x) y
      ⟨by simp, by
        intro d hd
        rcases List.mem_cons.mp hd with rfl | hd'
        · exact hc
        · exact hx.2 d hd'⟩
      (by assumption)

theorem metaLang_head {w : List Char} (hw : MetaLang w) :
    ∃ d r, w = d :: r ∧ isIdChar d = true := by
  induction hw with
  | single x hx =>
    obtain ⟨d, r, rfl⟩ := List.exists_cons_of_ne_nil hx.1
    exact ⟨d, r, rfl, hx.2 d (by simp)⟩
  | cons x y hx _ _ =>
    obtain ⟨d, r, rfl⟩ := List.exists_cons_of_ne_nil hx.1
    exact ⟨d, r ++ '.' :: y, rfl, hx.2 d (by simp)⟩

theorem metaLang_chars {w : List Char} (hw : MetaLang w) :
    ∀ c ∈ w, isIdChar c = true ∨ c = '.' := by
  induction hw with
  | single x hx => exact fun c hc => Or.inl (hx.2 c hc)
  | cons x y hx _ ih =>
    intro c hc
    rcases List.mem_append.mp hc with hc' | hc'
    · exact Or.inl (hx.2 c hc')
    · rcases List.mem_cons.mp hc' with rfl | hc''
      · exact Or.inr rfl
      · exact ih c hc''

theorem g5run_class {x : List Char} (hx : ∀ c ∈ x, isIdChar c = true) (t : List Char) :
    g5run (x ++ t) = (x ++ (g5run t).1, (g5run t).2) := by
  induction x with
  | nil => simp
  | cons c r ih =>
    have hc : isIdChar c = true := hx c (by simp)
    simp only [List.cons_append, g5run, if_pos hc, List.append_eq]
    rw [ih (fun d hd => hx d (by simp [hd]))]

theorem g5run_hard {u : List Char} (hu : HardBlocked u) : g5run u = ([], u) := by
  cases u with
  | nil => rfl
  | cons c r =>
    obtain ⟨h1, h2⟩ : isIdChar c = false ∧ c ≠ '.' := hu
    simp [g5run, h1, h2]

theorem g5run_append_hard {u : List Char} (hu : HardBlocked u) :
    ∀ x : List Char, g5run (x ++ u) = ((g5run x).1, (g5run x).2 ++ u) := by
  have hdf : isIdChar '.' = false := by decide
  intro x
  induction x with
  | nil => simp [g5run_hard hu, g5run]
  | cons c r ih =>
    by_cases hc : isIdChar c = true
    · simp only [List.cons_append, g5run, if_pos hc, List.append_eq, ih]
    · have hc' : isIdChar c = false := by simpa using hc
      by_cases hdot : c = '.'
      · subst hdot
        cases r with
        | nil =>
          cases u with
          | nil => simp [g5run]
          | cons d v =>
            obtain ⟨h1, _⟩ : isIdChar d = false ∧ d ≠ '.' := hu
            simp [g5run, h1, hdf]
        | cons d r' =>
          by_cases hd : isIdChar d = true
          · have e1 : g5run ('.' :: (d :: (r' ++ u)))
                = ('.' :: (g5run (d :: (r' ++ u))).1, (g5run (d :: (r' ++ u))).2) := by
              simp [g5run, hd, hdf]
            have e2 : g5run ('.' :: d :: r')
                = ('.' :: (g5run (d :: r')).1, (g5run (d :: r')).2) := by
              simp [g5run, hd, hdf]
            show g5run ('.' :: (d :: (r' ++ u))) = _
            rw [e1, e2]
            have e3 : g5run (d :: (r' ++ u))
                = ((g5run (d :: r')).1, (g5run (d :: r')).2 ++ u) := ih
            rw [e3]
          · have hd' : isIdChar d = false := by simpa using hd
            simp [g5run, hd', hdf]
      · simp [g5run, hc', hdot]

theorem g5run_sound_aux :
    ∀ (n : Nat) (x : List Char), x.length ≤ n →
      (∃ d r, x = d :: r ∧ isIdChar d = true) →
      x = (g5run x).1 ++ (g5run x).2 ∧ MetaLang (g5run x).1 := by
  intro n
  induction n with
  | zero =>
    rintro x hlen ⟨d, r, rfl, _⟩
    simp at hlen
  | succ n ih =>
    rintro x hlen ⟨d, r, rfl, hd⟩
    have hdf : isIdChar '.' = false := by decide
    have e0 : g5run (d :: r) = (d :: (g5run r).1, (g5run r).2) := by
      simp [g5run, hd]
    cases r with
    | nil =>
      rw [e0]
      exact ⟨rfl, DotChain.single [d] ⟨by simp, by simp [hd]⟩⟩
    | cons e t =>
      by_cases he : isIdChar e = true
      · have hr := ih (e :: t) (by simpa using Nat.lt_succ_iff.mp (by simpa using hlen)) ⟨e, t, rfl, he⟩
        rw [e0]
        refine ⟨?_, metaLang_cons hd hr.2⟩
        conv_lhs => rw [hr.1]
        simp
      · have he' : isIdChar e = false := by simpa using he
        by_cases hdot : e = '.'
        · subst hdot
          cases t with
          | nil =>
            have e1 : g5run ['.'] = ([], ['.']) := by decide
            rw [e0, e1]
            exact ⟨rfl, DotChain.single [d] ⟨by simp, by simp [hd]⟩⟩
          | cons f t' =>
            by_cases hf : isIdChar f = true
            · have e1 : g5run ('.' :: f :: t')
                  = ('.' :: (g5run (f :: t')).1, (g5run (f :: t')).2) := by
                simp [g5run, hf, hdf]
              have hr := ih (f :: t') (by simp at hlen ⊢; omega) ⟨f, t', rfl, hf⟩
              rw [e0, e1]
              refine ⟨?_, DotChain.cons [d] (g5run (f :: t')).1 ⟨by simp, by simp [hd]⟩ hr.2⟩
              conv_lhs => rw [hr.1]
              simp
            · have hf' : isIdChar f = false := by simpa using hf
              have e1 : g5run ('.' :: f :: t') = ([], '.' :: f :: t') := by
                simp [g5run, hf', hdf]
              rw [e0, e1]
              exact ⟨rfl, DotChain.single [d] ⟨by simp, by simp [hd]⟩⟩
        · have e1 : g5run (e :: t) = ([], e :: t) := by
            simp [g5run, he', hdot]
          rw [e0, e1]
          exact ⟨rfl, DotChain.single [d] ⟨by simp, by simp [hd]⟩⟩

theorem g5run_sound (x : List Char) (h : ∃ d r, x = d :: r ∧ isIdChar d = true) :
    x = (g5run x).1 ++ (g5run x).2 ∧ MetaLang (g5run x).1 :=
  g5run_sound_aux x.length x le_rfl h

theorem g5run_exact {m : List Char} (hm : MetaLang m) {u : List Char} (hu : HardBlocked u) :
    g5run (m ++ u) = (m, u) := by
  have hdf : isIdChar '.' = false := by decide
  induction hm with
  | single x hx =>
    rw [g5run_class hx.2, g5run_hard hu, List.append_nil]
  | cons x y hx hy ih =>
    have hshape : (x ++ '.' :: y) ++ u = x ++ ('.' :: (y ++ u)) := by simp
    rw [hshape, g5run_class hx.2]
    obtain ⟨d, r, hy', hd⟩ := metaLang_head hy
    have e : g5run ('.' :: (y ++ u)) = ('.' :: (g5run (y ++ u)).1, (g5run (y ++ u)).2) := by
      subst hy'
      simp [g5run, hd, hdf]
    rw [e, ih]

theorem munch_exact {m : List Char} (hm : MetaLang m) {u : List Char} (hu : HardBlocked u) :
    munch (m ++ u) = some (m, u) := by
  obtain ⟨d, r, hm', hd⟩ := metaLang_head hm
  subst hm'
  rw [List.cons_append, munch, if_pos hd, ← List.cons_append, g5run_exact hm hu]

theorem munch_sound {x m r : List Char} (h : munch x = some (m, r)) :
    x = m ++ r ∧ MetaLang m := by
  cases x with
  | nil => exact absurd h (by simp [munch])
  | cons c t =>
    by_cases hc : isIdChar c = true
    · simp only [munch, if_pos hc, Option.some.injEq] at h
      have hs := g5run_sound (c :: t) ⟨c, t, rfl, hc⟩
      rw [h] at hs
      exact hs
    · have hc' : isIdChar c = false := by simpa using hc
      simp [munch, hc'] at h

theorem munch_append_hard {u : List Char} (hu : HardBlocked u) (x : List Char) :
    munch (x ++ u) = (munch x).map (fun p => (p.1, p.2 ++ u)) := by
  cases x with
  | nil =>
    cases u with
    | nil => rfl
    | cons d v =>
      obtain ⟨h1, _⟩ : isIdChar d = false ∧ d ≠ '.' := hu
      simp [munch, h1]
  | cons c t =>
    by_cases hc : isIdChar c = true
    · simp only [List.cons_append, munch, if_pos hc, Option.map_some']
      rw [← List.cons_append, g5run_append_hard hu]
    · have hc' : isIdChar c = false := by simpa using hc
      simp [munch, hc']

theorem endOK_iff {r : List Char} : endOK r = true ↔ r = [] ∨ r = ['\n'] := by
  simp [endOK]

theorem endOK_append_nl {r : List Char} (h : '\n' ∉ r) : endOK (r ++ ['\n']) = endOK r := by
  cases r with
  | nil => rfl
  | cons c t =>
    have hc : c ≠ '\n' := fun he => h (by simp [he])
    have h1 : endOK ((c :: t) ++ ['\n']) = false := by
      rw [← Bool.not_eq_true, endOK_iff]
      rintro (h2 | h2)
      · simp at h2
      · rw [List.cons_append] at h2
        simp only [List.cons.injEq] at h2
        exact absurd (List.append_eq_nil.mp h2.2).1.symm (by simpa [h2.1] using hc) 
    have h2 : endOK (c :: t) = false := by
      rw [← Bool.not_eq_true, endOK_iff]
      rintro (h3 | h3)
      · simp at h3
      · simp only [List.cons.injEq] at h3
        exact hc h3.1
    rw [h1, h2]

/-! ### The tail continuation `K` -/

theorem K_meta {m : List Char} (hm : MetaLang m) {sep : Char} (hsep : sep = '+' ∨ sep = '-')
    {nl : List Char} (hnl : nl = [] ∨ nl = ['\n']) : K (sep :: (m ++ nl)) = some (some m) := by
  have hsb : (sep = '+' || sep = '-') = true := by
    rcases hsep with rfl | rfl <;> decide
  have hu : HardBlocked nl := by
    rcases hnl with rfl | rfl
    · trivial
    · exact ⟨by decide, by decide⟩
  have hend : endOK nl = true := endOK_iff.mpr hnl
  rw [K, if_pos hsb, munch_exact hm hu]
  simp [hend]

theorem K_sound {r : List Char} {mo : Option (List Char)} (h : K r = some mo) :
    (mo = none ∧ (r = [] ∨ r = ['\n'])) ∨
    ∃ sep m nl, (sep = '+' ∨ sep = '-') ∧ r = sep :: (m ++ nl) ∧ mo = some m ∧
      MetaLang m ∧ (nl = [] ∨ nl = ['\n']) := by
  cases r with
  | nil =>
    simp only [K, Option.some.injEq] at h
    exact Or.inl ⟨h.symm, Or.inl rfl⟩
  | cons c x =>
    by_cases hsep : (c = '+' || c = '-') = true
    · rw [K, if_pos hsep] at h
      cases hm : munch x with
      | none => rw [hm] at h; exact absurd h (by simp)
      | some p =>
        obtain ⟨m2, r2⟩ := p
        rw [hm] at h
        dsimp only at h
        by_cases he : endOK r2 = true
        · rw [if_pos he] at h
          simp only [Option.some.injEq] at h
          obtain ⟨hx, hml⟩ := munch_sound hm
          refine Or.inr ⟨c, m2, r2, ?_, ?_, h.symm, hml, endOK_iff.mp he⟩
          · rcases Bool.or_eq_true _ _ |>.mp hsep with h1 | h1
            · exact Or.inl (by simpa using h1)
            · exact Or.inr (by simpa using h1)
          · rw [hx]
        · rw [if_neg he] at h
          exact absurd h (by simp)
    · rw [K, if_neg hsep] at h
      by_cases he : endOK (c :: x) = true
      · rw [if_pos he] at h
        simp only [Option.some.injEq] at h
        rcases endOK_iff.mp he with h1 | h1
        · exact absurd h1 (by simp)
        · exact Or.inl ⟨h.symm, Or.inr h1⟩
      · rw [if_neg he] at h
        exact absurd h (by simp)

theorem K_none_plus {z : List Char} (hz : '+' ∈ z) (c : Char) : K (c :: z) = none := by
  by_cases hsep : (c = '+' || c = '-') = true
  · rw [K, if_pos hsep]
    cases hm : munch z with
    | none => rfl
    | some p =>
      obtain ⟨m2, r2⟩ := p
      obtain ⟨hx, hml⟩ := munch_sound hm
      have hpm : '+' ∉ m2 := by
        intro hmem
        rcases metaLang_chars hml '+' hmem with h1 | h1
        · exact absurd h1 (by decide)
        · exact absurd h1 (by decide)
      have hoz : '+' ∈ r2 := by
        rw [hx] at hz
        rcases List.mem_append.mp hz with h1 | h1
        · exact absurd h1 hpm
        · exact h1
      have hend : endOK r2 = false := by
        rw [← Bool.not_eq_true, endOK_iff]
        rintro (rfl | rfl)
        · simp at hoz
        · simp at hoz
      simp [hend]
  · rw [K, if_neg hsep]
    have hend : endOK (c :: z) = false := by
      rw [← Bool.not_eq_true, endOK_iff]
      rintro (h1 | h1)
      · simp at h1
      · simp only [List.cons.injEq] at h1
        exact List.ne_nil_of_mem hz h1.2
    simp [hend]

theorem K_append_nl {r : List Char} (h : '\n' ∉ r) : K (r ++ ['\n']) = K r := by
  cases r with
  | nil => rfl
  | cons c x =>
    have hx : '\n' ∉ x := fun he => h (by simp [he])
    by_cases hsep : (c = '+' || c = '-') = true
    · rw [List.cons_append, K, if_pos hsep, K, if_pos hsep]
      have hbn : HardBlocked ['\n'] := ⟨by decide, by decide⟩
      rw [munch_append_hard hbn x]
      cases hm : munch x with
      | none => rfl
      | some p =>
        obtain ⟨m2, r2⟩ := p
        obtain ⟨hxe, hml⟩ := munch_sound hm
        have hr2 : '\n' ∉ r2 := fun he => hx (by rw [hxe]; simp [he])
        simp only [Option.map_some']
        rw [endOK_append_nl hr2]
    · rw [List.cons_append, K, if_neg hsep, K, if_neg hsep, ← List.cons_append,
        endOK_append_nl h]

/-! ### The prerelease identifier candidates -/

theorem isIdChar_iff {c : Char} :
    isIdChar c = true ↔ c.isDigit = true ∨ c.isAlpha = true ∨ c = '-' := by
  simp [isIdChar, or_assoc]

theorem mem_takeSweep_iff {pre u rest : List Char} {q : List Char × List Char} :
    q ∈ takeSweep pre u rest ↔ ∃ j, j ≤ u.length ∧ q = (pre ++ u.take j, u.drop j ++ rest) := by
  simp only [takeSweep, List.mem_map, List.mem_range]
  constructor
  · rintro ⟨k, _, rfl⟩
    exact ⟨u.length - k, Nat.sub_le _ _, rfl⟩
  · rintro ⟨j, hj, rfl⟩
    refine ⟨u.length - j, by omega, ?_⟩
    rw [Nat.sub_sub_self hj]

theorem span_parts (p : Char → Bool) (l : List Char) : (l.span p).1 ++ (l.span p).2 = l := by
  rw [List.span_eq_take_drop]
  exact List.takeWhile_append_dropWhile p l

theorem idMatches_sound {s : List Char} {q : List Char × List Char} (h : q ∈ idMatches s) :
    s = q.1 ++ q.2 ∧ IdOk q.1 := by
  unfold idMatches at h
  rcases List.mem_append.mp h with h12 | h3
  case inl =>
    rcases List.mem_append.mp h12 with h1 | h2
    · -- alternative 1: the literal 0
      split at h1
      · next r =>
        simp only [List.mem_singleton] at h1
        subst h1
        exact ⟨rfl, by simp, by intro d hd; simp at hd; subst hd; decide, fun _ => Or.inl rfl⟩
      · simp at h1
    · -- alternative 2: a nonzero digit followed by digits
      split at h2
      case h_2 => simp at h2
      case h_1 c r =>
        split at h2
        case isFalse => simp at h2
        case isTrue hcond =>
          rw [mem_takeSweep_iff] at h2
          obtain ⟨j, hj, rfl⟩ := h2
          have hu : ∀ d ∈ r.takeWhile Char.isDigit, d.isDigit = true := fun d hd =>
            List.mem_takeWhile_imp hd
          constructor
          · show c :: r = ([c] ++ _) ++ _
            simp only [List.singleton_append, List.cons_append, List.cons.injEq, true_and,
              List.nil_append, ← List.append_assoc, List.take_append_drop, span_parts]
          · refine ⟨by simp, ?_, ?_⟩
            · intro d hd
              rcases List.mem_cons.mp (by simpa using hd) with rfl | hd'
              · exact isIdChar_of_digit hcond.1
              · exact isIdChar_of_digit (hu d (List.mem_of_mem_take hd'))
            · intro _
              refine Or.inr ⟨by simp, ?_, ?_⟩
              · intro d hd
                rcases List.mem_cons.mp (by simpa using hd) with rfl | hd'
                · exact hcond.1
                · exact hu d (List.mem_of_mem_take hd')
              · simpa using hcond.2
  case inr =>
    -- alternative 3: digits, a letter or hyphen, then class characters
    split at h3
    case h_2 => simp at h3
    case h_1 c r heq =>
      split at h3
      case isFalse => simp at h3
      case isTrue hcond =>
        rw [mem_takeSweep_iff] at h3
        obtain ⟨j, hj, rfl⟩ := h3
        have hd0 : ∀ d ∈ s.takeWhile Char.isDigit, d.isDigit = true := fun d hd =>
          List.mem_takeWhile_imp hd
        have hu : ∀ d ∈ r.takeWhile isIdChar, isIdChar d = true := fun d hd =>
          List.mem_takeWhile_imp hd
        have hcclass : isIdChar c = true := by
          rcases hcond with h' | h'
          · exact isIdChar_iff.mpr (Or.inr (Or.inl h'))
          · exact isIdChar_iff.mpr (Or.inr (Or.inr h'))
        have hcnd : c.isDigit = false := by
          rcases hcond with h' | h'
          · exact isAlpha_not_digit h'
          · subst h'; decide
        have hs : s = (s.span Char.isDigit).1 ++ (c :: r) := by
          conv_lhs => rw [← span_parts Char.isDigit s]
          rw [heq]
        constructor
        · have hr : List.take j (r.span isIdChar).1
              ++ (List.drop j (r.span isIdChar).1 ++ (r.span isIdChar).2) = r := by
            rw [← List.append_assoc, List.take_append_drop, span_parts]
          conv_lhs => rw [hs]
          simp only [List.append_assoc, List.singleton_append, List.cons_append,
            List.nil_append, hr]
        · refine ⟨by simp, ?_, ?_⟩
          · intro d hd
            simp only [List.append_assoc, List.singleton_append, List.mem_append,
              List.mem_cons, List.span_eq_take_drop] at hd
            rcases hd with hd' | hd'
            · exact isIdChar_of_digit (hd0 d hd')
            · rcases hd' with rfl | hd''
              · exact hcclass
              · exact hu d (List.mem_of_mem_take hd'')
          · intro hall
            have hcd : c ∈ ((s.span Char.isDigit).1 ++ [c]) ++ List.take j (r.span isIdChar).1 := by
              simp
            exact absurd (hall c hcd) (by simp [hcnd])

theorem notStarts_mono {u : List Char} (h : notStarts isIdChar u) :
    notStarts Char.isDigit u := by
  cases u with
  | nil => trivial
  | cons c v =>
    have hc : isIdChar c = false := h
    show c.isDigit = false
    rw [← Bool.not_eq_true]
    intro hd
    rw [isIdChar_of_digit hd] at hc
    exact Bool.true_eq_false.mp hc

theorem takeSweep_append (pre u2 rest w : List Char) :
    takeSweep pre u2 (rest ++ w) = (takeSweep pre u2 rest).map (fun q => (q.1, q.2 ++ w)) := by
  unfold takeSweep
  rw [List.map_map]
  apply List.map_congr_left
  intro k _
  simp [List.append_assoc]

theorem dropWhile_head_not (p : Char → Bool) :
    ∀ (l : List Char) {e : Char} {r : List Char}, l.dropWhile p = e :: r → p e = false := by
  intro l
  induction l with
  | nil => intro e r h; simp at h
  | cons c t ih =>
    intro e r h
    by_cases hc : p c = true
    · rw [List.dropWhile_cons_of_pos hc] at h
      exact ih h
    · rw [List.dropWhile_cons_of_neg hc] at h
      injection h with h1 _
      subst h1
      simpa using hc

theorem idMatches_complete {c : List Char} (hc : IdOk c) (u : List Char) :
    (c, u) ∈ idMatches (c ++ u) := by
  obtain ⟨hne, hclass, hnum⟩ := hc
  by_cases hall : ∀ ch ∈ c, ch.isDigit = true
  · rcases hnum hall with h0 | ⟨hne2, hdig, hhead⟩
    · -- the literal 0
      subst h0
      apply List.mem_append_left
      apply List.mem_append_left
      simp [idMatches]
    · -- a nonzero digit followed by digits
      obtain ⟨d0, ds, rfl⟩ := List.exists_cons_of_ne_nil hne
      have hd0 : d0.isDigit = true := hdig d0 (by simp)
      have hd00 : d0 ≠ '0' := by
        intro h
        exact hhead (by rw [h]; rfl)
      have hds : ∀ d ∈ ds, d.isDigit = true := fun d hd => hdig d (by simp [hd])
      apply List.mem_append_left
      apply List.mem_append_right
      show (d0 :: ds, u) ∈ if d0.isDigit = true ∧ d0 ≠ '0' then
        takeSweep [d0] ((ds ++ u).span Char.isDigit).1 ((ds ++ u).span Char.isDigit).2 else []
      rw [if_pos ⟨hd0, hd00⟩, mem_takeSweep_iff]
      refine ⟨ds.length, ?_, ?_⟩
      · rw [List.span_eq_take_drop, takeWhile_all_append Char.isDigit ds u hds]
        simp
      · rw [List.span_eq_take_drop, takeWhile_all_append Char.isDigit ds u hds,
          dropWhile_all_append Char.isDigit ds u hds]
        rw [List.take_left, List.drop_left]
        rw [List.takeWhile_append_dropWhile]
        simp
  · -- contains a non-digit: alternative 3
    have hdne : c.dropWhile Char.isDigit ≠ [] := by
      rw [ne_eq, List.dropWhile_eq_nil_iff]
      push_neg
      push_neg at hall
      obtain ⟨ch, hch, hnd⟩ := hall
      exact ⟨ch, hch, hnd⟩
    obtain ⟨e, rest2, he⟩ := List.exists_cons_of_ne_nil hdne
    have hsplit : c = c.takeWhile Char.isDigit ++ (e :: rest2) := by
      rw [← he, List.takeWhile_append_dropWhile]
    have hed : e.isDigit = false := dropWhile_head_not Char.isDigit c he
    have heclass : isIdChar e = true := hclass e (by rw [hsplit]; simp)
    have hcond : e.isAlpha = true ∨ e = '-' := by
      rcases isIdChar_iff.mp heclass with h1 | h1 | h1
      · rw [h1] at hed; exact absurd hed (by simp)
      · exact Or.inl h1
      · exact Or.inr h1
    have htk : ∀ d ∈ c.takeWhile Char.isDigit, d.isDigit = true := fun d hd =>
      List.mem_takeWhile_imp hd
    have hrest2 : ∀ d ∈ rest2, isIdChar d = true := fun d hd =>
      hclass d (by rw [hsplit]; simp [hd])
    apply List.mem_append_right
    have hshape : c ++ u = c.takeWhile Char.isDigit ++ (e :: (rest2 ++ u)) := by
      conv_lhs => rw [hsplit]
      simp
    rw [hshape]
    rw [span_exact Char.isDigit htk (by exact (by simpa using hed : Char.isDigit e = false))]
    show (c, u) ∈ if e.isAlpha = true ∨ e = '-' then
      takeSweep (c.takeWhile Char.isDigit ++ [e]) ((rest2 ++ u).span isIdChar).1
        ((rest2 ++ u).span isIdChar).2 else []
    rw [if_pos hcond, mem_takeSweep_iff]
    refine ⟨rest2.length, ?_, ?_⟩
    · rw [List.span_eq_take_drop, takeWhile_all_append isIdChar rest2 u hrest2]
      simp
    · rw [List.span_eq_take_drop, takeWhile_all_append isIdChar rest2 u hrest2,
        dropWhile_all_append isIdChar rest2 u hrest2, List.take_left, List.drop_left,
        List.takeWhile_append_dropWhile]
      rw [Prod.mk.injEq]
      constructor
      · rw [List.append_assoc, List.singleton_append]
        exact hsplit
      · rfl

theorem hardBlocked_notStarts {u : List Char} (hu : HardBlocked u) : notStarts isIdChar u := by
  cases u with
  | nil => trivial
  | cons c r => exact hu.1

theorem hardBlocked_head_facts {c : Char} {r : List Char} (hu : HardBlocked (c :: r)) :
    c ≠ '0' ∧ c.isDigit = false ∧ c.isAlpha = false ∧ c ≠ '-' := by
  obtain ⟨h1, _⟩ : isIdChar c = false ∧ c ≠ '.' := hu
  refine ⟨?_, ?_, ?_, ?_⟩
  · intro h; rw [h] at h1; exact absurd h1 (by decide)
  · rw [← Bool.not_eq_true]
    intro h
    rw [isIdChar_of_digit h] at h1
    exact absurd h1 (by simp)
  · rw [← Bool.not_eq_true]
    intro h
    rw [isIdChar_iff.mpr (Or.inr (Or.inl h))] at h1
    exact absurd h1 (by simp)
  · intro h
    rw [isIdChar_iff.mpr (Or.inr (Or.inr h))] at h1
    exact absurd h1 (by simp)

theorem idMatches_hard {u : List Char} (hu : HardBlocked u) : idMatches u = [] := by
  cases u with
  | nil => rfl
  | cons c r =>
    obtain ⟨h0, hcd, hca, hch⟩ := hardBlocked_head_facts hu
    have hns : notStarts Char.isDigit (c :: r) := hcd
    have hspan : ((c :: r).span Char.isDigit) = ([], c :: r) :=
      span_exact (x := ([] : List Char)) (u := c :: r) Char.isDigit (by simp) hns
    unfold idMatches
    rw [hspan]
    have hcond1 : ¬(c.isDigit = true ∧ c ≠ '0') := fun h => absurd h.1 (by simp [hcd])
    have hcond2 : ¬(c.isAlpha = true ∨ c = '-') := by
      rintro (h | h)
      · rw [hca] at h
        exact absurd h (by simp)
      · exact hch h
    split
    · next t heq =>
      injection heq with hh _
      exact absurd hh h0
    · show ([] ++ (if c.isDigit = true ∧ c ≠ '0' then
          takeSweep [c] (r.span Char.isDigit).1 (r.span Char.isDigit).2 else []))
        ++ (if c.isAlpha = true ∨ c = '-' then
          takeSweep (([] : List Char) ++ [c]) (r.span isIdChar).1 (r.span isIdChar).2 else []) = []
      rw [if_neg hcond1, if_neg hcond2]
      rfl

theorem idMatches_block {u : List Char} (hu : HardBlocked u) (s : List Char) :
    idMatches (s ++ u) = (idMatches s).map (fun q => (q.1, q.2 ++ u)) := by
  have hid : notStarts isIdChar u := hardBlocked_notStarts hu
  have hdg : notStarts Char.isDigit u := notStarts_mono hid
  cases s with
  | nil =>
    rw [List.nil_append, idMatches_hard hu]
    rfl
  | cons b t =>
    have hspan2 : ((t ++ u).span Char.isDigit)
        = ((t.span Char.isDigit).1, (t.span Char.isDigit).2 ++ u) :=
      span_append_blocked Char.isDigit hdg t
    have hspan3 : ((b :: (t ++ u)).span Char.isDigit)
        = (((b :: t).span Char.isDigit).1, ((b :: t).span Char.isDigit).2 ++ u) := by
      have h := span_append_blocked Char.isDigit hdg (b :: t)
      simpa using h
    unfold idMatches
    rw [List.cons_append, List.map_append, List.map_append, hspan3]
    congr 1
    congr 1
    · -- alternative 1: the literal 0
      by_cases hb : b = '0'
      · subst hb
        rfl
      · split
        · next w heq =>
          injection heq with hh _
          exact absurd hh hb
        · split
          · next w heq =>
            injection heq with hh _
            exact absurd hh hb
          · rfl
    · -- alternative 2: nonzero digit then digit sweep
      show (if b.isDigit = true ∧ b ≠ '0' then
          takeSweep [b] ((t ++ u).span Char.isDigit).1 ((t ++ u).span Char.isDigit).2 else [])
        = (if b.isDigit = true ∧ b ≠ '0' then
          takeSweep [b] (t.span Char.isDigit).1 (t.span Char.isDigit).2 else []).map
            (fun q => (q.1, q.2 ++ u))
      by_cases hb : b.isDigit = true ∧ b ≠ '0'
      · rw [if_pos hb, if_pos hb]
        simp only [hspan2]
        rw [takeSweep_append]
      · rw [if_neg hb, if_neg hb]
        rfl
    · -- alternative 3: digit run, letter or hyphen, class sweep
      cases hsp : ((b :: t).span Char.isDigit).2 with
      | nil =>
        cases u with
        | nil => rfl
        | cons d v =>
          obtain ⟨h0, hcd, hca, hch⟩ := hardBlocked_head_facts hu
          have hcond : ¬(d.isAlpha = true ∨ d = '-') := by
            rintro (h | h)
            · rw [hca] at h
              exact absurd h (by simp)
            · exact hch h
          show (if d.isAlpha = true ∨ d = '-' then
              takeSweep (((b :: t).span Char.isDigit).1 ++ [d]) (v.span isIdChar).1
                (v.span isIdChar).2 else []) = []
          rw [if_neg hcond]
      | cons e w =>
        show (if e.isAlpha = true ∨ e = '-' then
            takeSweep (((b :: t).span Char.isDigit).1 ++ [e]) ((w ++ u).span isIdChar).1
              ((w ++ u).span isIdChar).2 else [])
          = (if e.isAlpha = true ∨ e = '-' then
            takeSweep (((b :: t).span Char.isDigit).1 ++ [e]) (w.span isIdChar).1
              (w.span isIdChar).2 else []).map (fun q => (q.1, q.2 ++ u))
        by_cases he : e.isAlpha = true ∨ e = '-'
        · rw [if_pos he, if_pos he]
          simp only [span_append_blocked isIdChar hid w]
          rw [takeSweep_append]
        · rw [if_neg he, if_neg he]
          rfl

/-! ### The star `(?:\.ID)*` -/

theorem flatMap_congr {α β : Type} {l : List α} {f g : α → List β}
    (h : ∀ a ∈ l, f a = g a) : l.flatMap f = l.flatMap g := by
  induction l with
  | nil => rfl
  | cons a t ih =>
    rw [List.flatMap_cons, List.flatMap_cons, h a (by simp), ih (fun b hb => h b (by simp [hb]))]

theorem starF_nil (f : Nat) : starF f [] = [([], [])] := by
  cases f <;> rfl

theorem starF_succ_dot (f : Nat) (y : List Char) :
    starF (f + 1) ('.' :: y)
      = (idMatches y).flatMap
          (fun p => (starF f p.2).map (fun q => ('.' :: (p.1 ++ q.1), q.2)))
        ++ [([], '.' :: y)] := rfl

theorem starF_succ_head (f : Nat) {c : Char} (hc : c ≠ '.') (y : List Char) :
    starF (f + 1) (c :: y) = [([], c :: y)] := by
  unfold starF
  split
  · next y2 heq =>
    injection heq with h1 _
    exact absurd h1 hc
  · rfl

theorem starF_stable : ∀ (f g : Nat) (s : List Char), s.length ≤ f → s.length ≤ g →
    starF f s = starF g s := by
  intro f
  induction f with
  | zero =>
    intro g s h1 _
    have hs : s = [] := List.length_eq_zero.mp (Nat.le_zero.mp h1)
    subst hs
    rw [starF_nil, starF_nil]
  | succ f ih =>
    intro g s h1 h2
    cases g with
    | zero =>
      have hs : s = [] := List.length_eq_zero.mp (Nat.le_zero.mp h2)
      subst hs
      rw [starF_nil, starF_nil]
    | succ g =>
      cases s with
      | nil => rw [starF_nil, starF_nil]
      | cons c y =>
        by_cases hc : c = '.'
        · subst hc
          rw [starF_succ_dot, starF_succ_dot]
          congr 1
          apply flatMap_congr
          intro p hp
          have hs := idMatches_sound hp
          have h5 : 1 ≤ p.1.length := List.length_pos.mpr hs.2.1
          have h6 : y.length = p.1.length + p.2.length := by
            conv_lhs => rw [hs.1]
            simp
          simp only [List.length_cons] at h1 h2
          rw [ih g p.2 (by omega) (by omega)]
        · rw [starF_succ_head f hc, starF_succ_head g hc]

theorem starF_sound : ∀ (f : Nat) (s : List Char) (q : List Char × List Char),
    q ∈ starF f s → s = q.1 ++ q.2 ∧ TailChain q.1 := by
  intro f
  induction f with
  | zero =>
    intro s q h
    simp only [starF, List.mem_singleton] at h
    subst h
    exact ⟨rfl, TailChain.nil⟩
  | succ f ih =>
    intro s q h
    unfold starF at h
    rcases List.mem_append.mp h with h1 | h2
    · split at h1
      · next y =>
        simp only [List.mem_flatMap, List.mem_map] at h1
        obtain ⟨p, hp, q2, hq2, rfl⟩ := h1
        obtain ⟨hy, hid⟩ := idMatches_sound hp
        obtain ⟨hp2, htc⟩ := ih p.2 q2 hq2
        constructor
        · show '.' :: y = ('.' :: (p.1 ++ q2.1)) ++ q2.2
          rw [hy, hp2]
          simp
        · exact TailChain.cons p.1 q2.1 hid htc
      · simp at h1
    · simp only [List.mem_singleton] at h2
      subst h2
      exact ⟨rfl, TailChain.nil⟩

theorem starDotID_sound {s : List Char} {q : List Char × List Char} (h : q ∈ starDotID s) :
    s = q.1 ++ q.2 ∧ TailChain q.1 :=
  starF_sound s.length s q h

theorem starF_complete : ∀ (f : Nat) {c : List Char}, TailChain c → c.length ≤ f →
    ∀ u, (c, u) ∈ starF f (c ++ u) := by
  intro f
  induction f with
  | zero =>
    intro c hc hlen u
    have hc0 : c = [] := List.length_eq_zero.mp (Nat.le_zero.mp hlen)
    subst hc0
    rw [List.nil_append, starF]
    simp
  | succ f ih =>
    intro c hc hlen u
    cases hc with
    | nil =>
      rw [List.nil_append]
      unfold starF
      exact List.mem_append_right _ (by simp)
    | cons x y hx hy =>
      have hshape : ('.' :: (x ++ y)) ++ u = '.' :: (x ++ (y ++ u)) := by simp
      rw [hshape, starF_succ_dot]
      apply List.mem_append_left
      rw [List.mem_flatMap]
      refine ⟨(x, y ++ u), idMatches_complete hx (y ++ u), ?_⟩
      rw [List.mem_map]
      refine ⟨(y, u), ih hy ?_ u, rfl⟩
      have h5 : 1 ≤ x.length := List.length_pos.mpr hx.1
      simp only [List.length_cons, List.length_append] at hlen
      omega

theorem starDotID_complete {c : List Char} (hc : TailChain c) (u : List Char) :
    (c, u) ∈ starDotID (c ++ u) :=
  starF_complete (c ++ u).length hc (by simp) u

theorem starF_block {u : List Char} (hu : HardBlocked u) :
    ∀ (f : Nat) (s : List Char),
      starF f (s ++ u) = (starF f s).map (fun q => (q.1, q.2 ++ u)) := by
  intro f
  induction f with
  | zero => intro s; rfl
  | succ f ih =>
    intro s
    cases s with
    | nil =>
      rw [List.nil_append]
      cases u with
      | nil => rfl
      | cons d v =>
        have hd : d ≠ '.' := hu.2
        rw [starF_succ_head f hd]
        rfl
    | cons c y =>
      by_cases hc : c = '.'
      · subst hc
        rw [List.cons_append, starF_succ_dot, starF_succ_dot, List.map_append]
        congr 1
        · rw [idMatches_block hu y, List.flatMap_map, List.map_flatMap]
          apply flatMap_congr
          intro p hp
          show (starF f (p.2 ++ u)).map (fun q => ('.' :: (p.1 ++ q.1), q.2)) = _
          rw [ih p.2, List.map_map, List.map_map]
          rfl
      · rw [List.cons_append, starF_succ_head f hc, starF_succ_head f hc]
        rfl

theorem starDotID_block {u : List Char} (hu : HardBlocked u) (s : List Char) :
    starDotID (s ++ u) = (starDotID s).map (fun q => (q.1, q.2 ++ u)) := by
  unfold starDotID
  rw [starF_block hu (s ++ u).length s,
    starF_stable (s ++ u).length s.length s (by simp) le_rfl]

/-! ### The prerelease group `ID(?:\.ID)*` -/

theorem preLang_of {y : List Char} (hy : TailChain y) : ∀ {x}, IdOk x → PreLang (x ++ y) := by
  induction hy with
  | nil =>
    intro x hx
    rw [List.append_nil]
    exact DotChain.single x hx
  | cons x2 y2 hx2 _ ih =>
    intro x hx
    exact DotChain.cons x (x2 ++ y2) hx (ih hx2)

theorem preLang_split {p : List Char} (hp : PreLang p) :
    ∃ x y, p = x ++ y ∧ IdOk x ∧ TailChain y := by
  induction hp with
  | single x hx => exact ⟨x, [], by simp, hx, TailChain.nil⟩
  | cons x y hx _ ih =>
    obtain ⟨x2, y2, rfl, hx2, hy2⟩ := ih
    exact ⟨x, '.' :: (x2 ++ y2), rfl, hx, TailChain.cons x2 y2 hx2 hy2⟩

theorem preLang_ne_nil {p : List Char} (hp : PreLang p) : p ≠ [] := by
  induction hp with
  | single x hx => exact hx.1
  | cons x y _ _ _ => simp

theorem preLang_chars {p : List Char} (hp : PreLang p) :
    ∀ c ∈ p, isIdChar c = true ∨ c = '.' := by
  induction hp with
  | single x hx => exact fun c hc => Or.inl (hx.2.1 c hc)
  | cons x y hx _ ih =>
    intro c hc
    rcases List.mem_append.mp hc with hc' | hc'
    · exact Or.inl (hx.2.1 c hc')
    · rcases List.mem_cons.mp hc' with rfl | hc''
      · exact Or.inr rfl
      · exact ih c hc''

theorem preLang_no_nl {p : List Char} (hp : PreLang p) : '\n' ∉ p := by
  intro hmem
  rcases preLang_chars hp '\n' hmem with h | h
  · exact absurd h (by decide)
  · exact absurd h (by decide)

theorem preMatches_sound {s : List Char} {q : List Char × List Char} (h : q ∈ preMatches s) :
    s = q.1 ++ q.2 ∧ PreLang q.1 := by
  simp only [preMatches, List.mem_flatMap, List.mem_map] at h
  obtain ⟨p, hp, q2, hq2, rfl⟩ := h
  obtain ⟨hs, hid⟩ := idMatches_sound hp
  obtain ⟨hp2, htc⟩ := starDotID_sound hq2
  constructor
  · rw [hs, hp2]
    simp
  · exact preLang_of htc hid

theorem preMatches_complete {p : List Char} (hp : PreLang p) (u : List Char) :
    (p, u) ∈ preMatches (p ++ u) := by
  obtain ⟨x, y, rfl, hx, hy⟩ := preLang_split hp
  have hshape : (x ++ y) ++ u = x ++ (y ++ u) := by simp
  rw [hshape]
  simp only [preMatches, List.mem_flatMap, List.mem_map]
  exact ⟨(x, y ++ u), idMatches_complete hx (y ++ u), (y, u), starDotID_complete hy u, rfl⟩

theorem preMatches_block {u : List Char} (hu : HardBlocked u) (s : List Char) :
    preMatches (s ++ u) = (preMatches s).map (fun q => (q.1, q.2 ++ u)) := by
  unfold preMatches
  rw [idMatches_block hu s, List.flatMap_map, List.map_flatMap]
  apply flatMap_congr
  intro p hp
  show (starDotID (p.2 ++ u)).map (fun q => (p.1 ++ q.1, q.2)) = _
  rw [starDotID_block hu p.2, List.map_map, List.map_map]
  rfl

/-! ### The backtracking scan -/

theorem scanCands_mem {l : List (List Char × List Char)} {res : List Char × Option (List Char)}
    (h : scanCands l = some res) : ∃ q ∈ l, q.1 = res.1 ∧ K q.2 = some res.2 := by
  induction l with
  | nil => exact absurd h (by simp [scanCands])
  | cons p rest ih =>
    rw [scanCands] at h
    cases hK : K p.2 with
    | some m =>
      rw [hK] at h
      simp only [Option.some.injEq] at h
      exact ⟨p, by simp, by rw [← h], by rw [← h, hK]⟩
    | none =>
      rw [hK] at h
      obtain ⟨q, hq, h1, h2⟩ := ih h
      exact ⟨q, by simp [hq], h1, h2⟩

theorem scanCands_append_nl {l : List (List Char × List Char)}
    (h : ∀ q ∈ l, '\n' ∉ q.2) :
    scanCands (l.map (fun q => (q.1, q.2 ++ ['\n']))) = scanCands l := by
  induction l with
  | nil => rfl
  | cons p rest ih =>
    rw [List.map_cons, scanCands, scanCands, K_append_nl (h p (by simp))]
    cases hK : K p.2 with
    | some m => rfl
    | none => exact ih (fun q hq => h q (by simp [hq]))

theorem scanCands_eq_some {l : List (List Char × List Char)} {a : List Char}
    {b : Option (List Char)}
    (hall : ∀ q ∈ l, K q.2 = none ∨ (q.1 = a ∧ K q.2 = some b))
    (hex : ∃ q ∈ l, q.1 = a ∧ K q.2 = some b) :
    scanCands l = some (a, b) := by
  induction l with
  | nil => simp at hex
  | cons p rest ih =>
    rcases hall p (by simp) with hnone | ⟨h1, h2⟩
    · rw [scanCands, hnone]
      apply ih
      · exact fun q hq => hall q (by simp [hq])
      · obtain ⟨q, hq, hq1, hq2⟩ := hex
        rcases List.mem_cons.mp hq with rfl | hq'
        · rw [hnone] at hq2
          exact absurd hq2 (by simp)
        · exact ⟨q, hq', hq1, hq2⟩
    · rw [scanCands, h2, h1]

theorem scanCands_none_iff {l : List (List Char × List Char)} :
    scanCands l = none ↔ ∀ q ∈ l, K q.2 = none := by
  induction l with
  | nil => simp [scanCands]
  | cons p rest ih =>
    rw [scanCands]
    cases hK : K p.2 with
    | some m =>
      simp only [Option.some_ne_none, false_iff]
      intro hall
      exact absurd (hall p (by simp)) (by simp [hK])
    | none =>
      rw [ih]
      constructor
      · intro hall q hq
        rcases List.mem_cons.mp hq with rfl | hq'
        · exact hK
        · exact hall q hq'
      · intro hall q hq
        exact hall q (by simp [hq])

/-! ### The full tail `(?:-(G4))?(?:[\+\-](G5))?$` -/

theorem tailScan_dash (x : List Char) {a : List Char} {b : Option (List Char)}
    (h : scanCands (preMatches x) = some (a, b)) :
    tailScan ('-' :: x) = some (some a, b) := by
  show (match scanCands (preMatches x) with
    | some pm => some (some pm.1, pm.2)
    | none => (K ('-' :: x)).map (fun m => (none, m))) = some (some a, b)
  rw [h]

theorem tailScan_not_dash {c : Char} (hc : c ≠ '-') (x : List Char) :
    tailScan (c :: x) = (K (c :: x)).map (fun m => (none, m)) := by
  unfold tailScan
  split
  · next y heq =>
    injection heq with h1 _
    exact absurd h1 hc
  · rfl

theorem tailScan_sound {t : List Char} {pre meta : Option (List Char)}
    (h : tailScan t = some (pre, meta)) :
    (pre = none ∧ K t = some meta) ∨
    (∃ p r, pre = some p ∧ t = '-' :: (p ++ r) ∧ PreLang p ∧ K r = some meta ∧
      scanCands (preMatches (p ++ r)) = some (p, meta)) := by
  cases t with
  | nil =>
    left
    have h2 : (some (none, none) : Option (Option (List Char) × Option (List Char)))
        = some (pre, meta) := h
    simp only [Option.some.injEq, Prod.mk.injEq] at h2
    refine ⟨h2.1.symm, ?_⟩
    rw [← h2.2]
    rfl
  | cons c x =>
    by_cases hc : c = '-'
    · subst hc
      have h2 : (match scanCands (preMatches x) with
        | some pm => some (some pm.1, pm.2)
        | none => (K ('-' :: x)).map (fun m => (none, m))) = some (pre, meta) := h
      cases hs : scanCands (preMatches x) with
      | some pm =>
        rw [hs] at h2
        simp only [Option.some.injEq, Prod.mk.injEq] at h2
        right
        obtain ⟨q, hq, hq1, hq2⟩ := scanCands_mem hs
        obtain ⟨hx, hpl⟩ := preMatches_sound hq
        refine ⟨pm.1, q.2, h2.1.symm, ?_, ?_, ?_, ?_⟩
        · rw [hx, hq1]
        · rw [← hq1]
          exact hpl
        · rw [hq2, h2.2]
        · rw [← hq1, ← hx, hs, hq1, ← h2.2]
      | none =>
        rw [hs] at h2
        left
        cases hK : K ('-' :: x) with
        | some mo =>
          rw [hK] at h2
          simp only [Option.map_some', Option.some.injEq, Prod.mk.injEq] at h2
          exact ⟨h2.1.symm, by rw [h2.2]⟩
        | none =>
          rw [hK] at h2
          exact absurd h2 (by simp)
    · rw [tailScan_not_dash hc x] at h
      left
      cases hK : K (c :: x) with
      | some mo =>
        rw [hK] at h
        simp only [Option.map_some', Option.some.injEq, Prod.mk.injEq] at h
        exact ⟨h.1.symm, by rw [h.2]⟩
      | none =>
        rw [hK] at h
        exact absurd h (by simp)

theorem tail_roundtrip {t : List Char} {pre meta : Option (List Char)}
    (h : tailScan t = some (pre, meta)) :
    tailScan (tailRender pre meta) = some (pre, meta) := by
  rcases tailScan_sound h with ⟨rfl, hK⟩ | ⟨p, r, rfl, rfl, hpl, hKr, hscan⟩
  · rcases K_sound hK with ⟨rfl, hr⟩ | ⟨sep, m, nl, hsep, hre, rfl, hml, hnl⟩
    · rfl
    · have hren : tailRender none (some m) = '+' :: m := rfl
      rw [hren, tailScan_not_dash (by decide) m]
      have hK2 : K ('+' :: (m ++ [])) = some (some m) := K_meta hml (Or.inl rfl) (Or.inl rfl)
      rw [List.append_nil] at hK2
      rw [hK2]
      rfl
  · rcases K_sound hKr with ⟨rfl, hr⟩ | ⟨sep, m, nl, hsep, hre, rfl, hml, hnl⟩
    · have hren : tailRender (some p) none = '-' :: p := by simp [tailRender]
      rw [hren]
      have hscan2 : scanCands (preMatches p) = some (p, none) := by
        rcases hr with rfl | rfl
        · rwa [List.append_nil] at hscan
        · have hb : HardBlocked ['\n'] := ⟨by decide, by decide⟩
          have hno : ∀ q ∈ preMatches p, '\n' ∉ q.2 := by
            intro q hq hmem
            obtain ⟨hx, _⟩ := preMatches_sound hq
            exact preLang_no_nl hpl (by rw [hx]; exact List.mem_append_right _ hmem)
          rw [preMatches_block hb p, scanCands_append_nl hno] at hscan
          exact hscan
      exact tailScan_dash p hscan2
    · have hb : HardBlocked ('+' :: m) := ⟨by decide, by decide⟩
      have hren : tailRender (some p) (some m) = '-' :: (p ++ '+' :: m) := rfl
      rw [hren]
      apply tailScan_dash
      rw [preMatches_block hb p]
      apply scanCands_eq_some
      · intro q2 hq2
        rw [List.mem_map] at hq2
        obtain ⟨q, hq, rfl⟩ := hq2
        obtain ⟨hx, _⟩ := preMatches_sound hq
        cases hq2 : q.2 with
        | nil =>
          right
          constructor
          · show q.1 = p
            rw [hx, hq2, List.append_nil]
          · show K ('+' :: m) = some (some m)
            have h3 := K_meta hml (Or.inl rfl) (Or.inl rfl)
            rwa [List.append_nil] at h3
        | cons c z =>
          left
          show K (c :: (z ++ '+' :: m)) = none
          exact K_none_plus (by simp) c
      · refine ⟨(p, '+' :: m), ?_, rfl, ?_⟩
        · rw [List.mem_map]
          refine ⟨(p, []), ?_, rfl⟩
          have h3 := preMatches_complete hpl []
          rwa [List.append_nil] at h3
        · have h3 := K_meta hml (Or.inl rfl) (Or.inl rfl)
          rwa [List.append_nil] at h3

/-! ### The full regex and `Version.parse` -/

theorem numLang_head_digit {A : List Char} (hA : NumLang A) :
    ∃ d r, A = d :: r ∧ d.isDigit = true := by
  rcases hA with rfl | ⟨hne, hdig, _⟩
  · exact ⟨'0', [], rfl, by decide⟩
  · obtain ⟨d, r, rfl⟩ := List.exists_cons_of_ne_nil hne
    exact ⟨d, r, rfl, hdig d (by simp)⟩

theorem startsWithV_render {A X : List Char} (hA : NumLang A) :
    startsWithV (String.mk (A ++ X)) = false := by
  obtain ⟨d, r, rfl, hd⟩ := numLang_head_digit hA
  have hdv : d ≠ 'v' := by
    intro he
    rw [he] at hd
    exact absurd hd (by decide)
  show decide (d = 'v') = false
  exact decide_eq_false hdv

theorem tailRender_notDigit (pre meta : Option (List Char)) :
    notStarts Char.isDigit (tailRender pre meta) := by
  cases pre with
  | some p => show Char.isDigit '-' = false; decide
  | none =>
    cases meta with
    | some m => show Char.isDigit '+' = false; decide
    | none => trivial

theorem strTailL_eq_render (v : Version) :
    strTailL v = tailRender (capPre v.prerelease) (capPre v.metadata) := by
  have hpre : (if optTruthy v.prerelease then '-' :: (v.prerelease.getD "").data else [])
      = (match capPre v.prerelease with | some p => '-' :: p | none => []) := by
    cases hp : v.prerelease with
    | none => rfl
    | some s =>
      by_cases hs : s = ""
      · subst hs
        rfl
      · simp [optTruthy, capPre, hs]
  have hmeta : (if optTruthy v.metadata then '+' :: (v.metadata.getD "").data else [])
      = (match capPre v.metadata with | some m => '+' :: m | none => []) := by
    cases hm : v.metadata with
    | none => rfl
    | some s =>
      by_cases hs : s = ""
      · subst hs
        rfl
      · simp [optTruthy, capPre, hs]
  unfold strTailL tailRender
  rw [hpre, hmeta]

theorem capPre_map_of_ne {o : Option (List Char)} (h : ∀ p, o = some p → p ≠ []) :
    capPre (o.map (fun l => String.mk l)) = o := by
  cases o with
  | none => rfl
  | some p =>
    have hp : p ≠ [] := h p rfl
    have hs : String.mk p ≠ "" := fun he => hp (congrArg String.data he)
    simp [capPre, hs]

theorem strL_decomp (v : Version) :
    v.strL = intChars v.major
      ++ '.' :: (intChars v.minor ++ '.' :: (intChars v.patch ++ strTailL v)) := by
  unfold Version.strL strTailL
  simp [List.append_assoc]

theorem tailScan_pre_ne {t : List Char} {pre meta : Option (List Char)}
    (h : tailScan t = some (pre, meta)) : ∀ p, pre = some p → p ≠ [] := by
  intro p hp
  rcases tailScan_sound h with ⟨hnone, _⟩ | ⟨p2, r, hpre2, _, hpl, _, _⟩
  · rw [hnone] at hp
    exact absurd hp (by simp)
  · rw [hpre2] at hp
    injection hp with hp2
    rw [← hp2]
    exact preLang_ne_nil hpl

theorem tailScan_meta_ne {t : List Char} {pre meta : Option (List Char)}
    (h : tailScan t = some (pre, meta)) : ∀ m, meta = some m → m ≠ [] := by
  intro m hm
  have hKm : ∃ r, K r = some meta := by
    rcases tailScan_sound h with ⟨_, hK⟩ | ⟨p2, r, _, _, _, hKr, _⟩
    · exact ⟨t, hK⟩
    · exact ⟨r, hKr⟩
  obtain ⟨r, hK⟩ := hKm
  rcases K_sound hK with ⟨hnone, _⟩ | ⟨sep, m2, nl, _, _, hsome, hml, _⟩
  · rw [hnone] at hm
    exact absurd hm (by simp)
  · rw [hsome] at hm
    injection hm with hm2
    obtain ⟨d, r2, hm3, _⟩ := metaLang_head hml
    rw [← hm2, hm3]
    simp

theorem reMatch_sound {s : List Char} {a b c : Nat} {pre meta : Option (List Char)}
    (h : reMatch s = some (a, b, c, pre, meta)) :
    ∃ A B C t, s = A ++ '.' :: (B ++ '.' :: (C ++ t)) ∧
      NumLang A ∧ NumLang B ∧ NumLang C ∧
      a = digitsVal A ∧ b = digitsVal B ∧ c = digitsVal C ∧
      tailScan t = some (pre, meta) := by
  unfold reMatch at h
  split at h
  · next A r1 heq1 =>
    split at h
    · next B r2 heq2 =>
      split at h
      · next C t heq3 =>
        cases hts : tailScan t with
        | none =>
          rw [hts] at h
          exact absurd h (by simp)
        | some pm =>
          rw [hts] at h
          simp only [Option.map_some', Option.some.injEq, Prod.mk.injEq] at h
          obtain ⟨h1, h2, h3, h4, h5⟩ := h
          obtain ⟨hs1, hA⟩ := numSplit_sound heq1
          obtain ⟨hs2, hB⟩ := numSplit_sound heq2
          obtain ⟨hs3, hC⟩ := numSplit_sound heq3
          refine ⟨A, B, C, t, ?_, hA, hB, hC, h1.symm, h2.symm, h3.symm, ?_⟩
          · rw [hs1, hs2, hs3]
          · rw [hts, ← h4, ← h5]
      · exact absurd h (by simp)
    · exact absurd h (by simp)
  · exact absurd h (by simp)

theorem reMatch_render {A B C t : List Char} (hA : NumLang A) (hB : NumLang B) (hC : NumLang C)
    (hhead : notStarts Char.isDigit t) :
    reMatch (A ++ '.' :: (B ++ '.' :: (C ++ t)))
      = (tailScan t).map (fun pm => (digitsVal A, digitsVal B, digitsVal C, pm.1, pm.2)) := by
  have hd : Char.isDigit '.' = false := by decide
  have h1 : numSplit (A ++ '.' :: (B ++ '.' :: (C ++ t)))
      = some (A, '.' :: (B ++ '.' :: (C ++ t))) := numSplit_append hA hd
  have h2 : numSplit (B ++ '.' :: (C ++ t)) = some (B, '.' :: (C ++ t)) := numSplit_append hB hd
  have h3 : numSplit (C ++ t) = some (C, t) := numSplit_append hC hhead
  simp only [reMatch, h1, h2, h3]

theorem parse_ok_decomp {s : String} {v : Version} (h : Version.parse s = .ok v) :
    startsWithV s = false ∧ ∃ a b c pre meta, reMatch s.data = some (a, b, c, pre, meta) ∧
      v = ⟨(a : Int), (b : Int), (c : Int), pre.map (fun l => String.mk l),
        meta.map (fun l => String.mk l)⟩ := by
  unfold Version.parse at h
  by_cases hv : startsWithV s = true
  · rw [if_pos hv] at h
    exact absurd h (by simp)
  · have hv2 : startsWithV s = false := by simpa using hv
    rw [if_neg hv] at h
    split at h
    · next a b c pre meta heq =>
      injection h with h2
      exact ⟨hv2, a, b, c, pre, meta, heq, h2.symm⟩
    · exact absurd h (by simp)

theorem parse_of_reMatch {s : String} (hv : startsWithV s = false) {a b c : Nat}
    {pre meta : Option (List Char)} (h : reMatch s.data = some (a, b, c, pre, meta)) :
    Version.parse s = .ok ⟨(a : Int), (b : Int), (c : Int), pre.map (fun l => String.mk l),
      meta.map (fun l => String.mk l)⟩ := by
  unfold Version.parse
  rw [if_neg (by simp [hv]), h]

theorem parse_good {s : String} {v : Version} (h : Version.parse s = .ok v) :
    GoodVersion v := by
  obtain ⟨hv, a, b, c, pre, meta, hre, rfl⟩ := parse_ok_decomp h
  obtain ⟨A, B, C, t, hs, hA, hB, hC, ha, hb, hc, hts⟩ := reMatch_sound hre
  refine ⟨Int.natCast_nonneg a, Int.natCast_nonneg b, Int.natCast_nonneg c, ?_⟩
  show tailScan (strTailL ⟨(a : Int), (b : Int), (c : Int), pre.map (fun l => String.mk l),
    meta.map (fun l => String.mk l)⟩) = _
  rw [strTailL_eq_render]
  dsimp only
  rw [capPre_map_of_ne (tailScan_pre_ne hts), capPre_map_of_ne (tailScan_meta_ne hts)]
  exact tail_roundtrip hts

theorem parse_good_render {v : Version} (hg : GoodVersion v) :
    Version.parse v.str = .ok (normExtras v) := by
  obtain ⟨h1, h2, h3, hts⟩ := hg
  have hA : NumLang (natChars v.major.natAbs) := natChars_numLang _
  have hB : NumLang (natChars v.minor.natAbs) := natChars_numLang _
  have hC : NumLang (natChars v.patch.natAbs) := natChars_numLang _
  have hiA : intChars v.major = natChars v.major.natAbs := by
    unfold intChars
    rw [if_neg (by omega)]
  have hiB : intChars v.minor = natChars v.minor.natAbs := by
    unfold intChars
    rw [if_neg (by omega)]
  have hiC : intChars v.patch = natChars v.patch.natAbs := by
    unfold intChars
    rw [if_neg (by omega)]
  have hsl : v.strL = natChars v.major.natAbs
      ++ '.' :: (natChars v.minor.natAbs ++ '.' :: (natChars v.patch.natAbs ++ strTailL v)) := by
    rw [strL_decomp, hiA, hiB, hiC]
  have hsv : startsWithV v.str = false := by
    show startsWithV (String.mk v.strL) = false
    rw [hsl]
    exact startsWithV_render hA
  have hhead : notStarts Char.isDigit (strTailL v) := by
    rw [strTailL_eq_render]
    exact tailRender_notDigit _ _
  have hre : reMatch v.str.data
      = some (v.major.natAbs, v.minor.natAbs, v.patch.natAbs,
          capPre v.prerelease, capPre v.metadata) := by
    show reMatch v.strL = _
    rw [hsl, reMatch_render hA hB hC hhead, hts]
    simp only [Option.map_some', digitsVal_natChars]
  rw [parse_of_reMatch hsv hre]
  unfold normExtras
  have hpre : (capPre v.prerelease).map (fun l => String.mk l)
      = if v.prerelease = some "" then none else v.prerelease := by
    cases hp : v.prerelease with
    | none => rfl
    | some p =>
      by_cases hs : p = ""
      · subst hs
        rfl
      · have hd : p.data ≠ [] := fun he => hs (by
          have := congrArg String.mk he
          simpa using this)
        simp [capPre, hs, hd]
  have hmeta : (capPre v.metadata).map (fun l => String.mk l)
      = if v.metadata = some "" then none else v.metadata := by
    cases hm : v.metadata with
    | none => rfl
    | some m =>
      by_cases hs : m = ""
      · subst hs
        rfl
      · have hd : m.data ≠ [] := fun he => hs (by
          have := congrArg String.mk he
          simpa using this)
        simp [capPre, hs, hd]
  rw [Except.ok.injEq]
  refine Version.mk.injEq _ _ _ _ _ _ _ _ _ _ |>.mpr ?_
  exact ⟨Int.natAbs_of_nonneg h1, Int.natAbs_of_nonneg h2, Int.natAbs_of_nonneg h3, hpre, hmeta⟩

theorem parse_normExtras {s : String} {v : Version} (h : Version.parse s = .ok v) :
    normExtras v = v := by
  obtain ⟨hv, a, b, c, pre, meta, hre, rfl⟩ := parse_ok_decomp h
  obtain ⟨A, B, C, t, hs, hA, hB, hC, ha, hb, hc, hts⟩ := reMatch_sound hre
  have hp : (if (pre.map (fun l => String.mk l)) = some "" then none
      else (pre.map (fun l => String.mk l))) = pre.map (fun l => String.mk l) := by
    cases pre with
    | none => rfl
    | some p =>
      have hne : String.mk p ≠ "" := fun he =>
        (tailScan_pre_ne hts p rfl) (congrArg String.data he)
      simp [hne]
  have hm : (if (meta.map (fun l => String.mk l)) = some "" then none
      else (meta.map (fun l => String.mk l))) = meta.map (fun l => String.mk l) := by
    cases meta with
    | none => rfl
    | some m =>
      have hne : String.mk m ≠ "" := fun he =>
        (tailScan_meta_ne hts m rfl) (congrArg String.data he)
      simp [hne]
  unfold normExtras
  dsimp only
  rw [hp, hm]

theorem bump_ok_decomp {v w : Version} {bt : String} {ce : Bool}
    (h : v.bump bt ce = .ok w) :
    ∃ out, (out = { v with major := v.major + 1 } ∨ out = { v with minor := v.minor + 1 } ∨
        out = { v with patch := v.patch + 1 }) ∧
      w = if ce then { out with metadata := some "", prerelease := some "" } else out := by
  unfold Version.bump at h
  by_cases h1 : bt = "major"
  · rw [if_pos h1] at h
    have h2 : (Except.ok (if ce then
        { { v with major := v.major + 1 } with metadata := some "", prerelease := some "" }
        else { v with major := v.major + 1 }) : Except String Version) = .ok w := h
    injection h2 with h3
    exact ⟨_, Or.inl rfl, h3.symm⟩
  · rw [if_neg h1] at h
    by_cases h2 : bt = "minor"
    · rw [if_pos h2] at h
      have h3 : (Except.ok (if ce then
          { { v with minor := v.minor + 1 } with metadata := some "", prerelease := some "" }
          else { v with minor := v.minor + 1 }) : Except String Version) = .ok w := h
      injection h3 with h4
      exact ⟨_, Or.inr (Or.inl rfl), h4.symm⟩
    · rw [if_neg h2] at h
      by_cases h3 : bt = "patch"
      · rw [if_pos h3] at h
        have h4 : (Except.ok (if ce then
            { { v with patch := v.patch + 1 } with metadata := some "", prerelease := some "" }
            else { v with patch := v.patch + 1 }) : Except String Version) = .ok w := h
        injection h4 with h5
        exact ⟨_, Or.inr (Or.inr rfl), h5.symm⟩
      · rw [if_neg h3] at h
        exact absurd h (by simp)

theorem bump_good {v w : Version} (hg : GoodVersion v) {bt : String} {ce : Bool}
    (h : v.bump bt ce = .ok w) : GoodVersion w := by
  obtain ⟨h1, h2, h3, hts⟩ := hg
  obtain ⟨out, hout, rfl⟩ := bump_ok_decomp h
  have hnum : 0 ≤ out.major ∧ 0 ≤ out.minor ∧ 0 ≤ out.patch := by
    rcases hout with rfl | rfl | rfl
    · exact ⟨by show (0 : Int) ≤ v.major + 1; omega, h2, h3⟩
    · exact ⟨h1, by show (0 : Int) ≤ v.minor + 1; omega, h3⟩
    · exact ⟨h1, h2, by show (0 : Int) ≤ v.patch + 1; omega⟩
  have hex : out.prerelease = v.prerelease ∧ out.metadata = v.metadata := by
    rcases hout with rfl | rfl | rfl <;> exact ⟨rfl, rfl⟩
  cases ce with
  | true => exact ⟨hnum.1, hnum.2.1, hnum.2.2, rfl⟩
  | false =>
    refine ⟨hnum.1, hnum.2.1, hnum.2.2, ?_⟩
    have hst : strTailL out = strTailL v := by
      unfold strTailL
      rw [hex.1, hex.2]
    show tailScan (strTailL out) = some (capPre out.prerelease, capPre out.metadata)
    rw [hst, hex.1, hex.2]
    exact hts

theorem producible_good {v : Version} (h : Producible v) : GoodVersion v := by
  induction h with
  | ofParse s v hp => exact parse_good hp
  | ofBump v w bt ce _ hb ih => exact bump_good ih hb

/-- C2 (amended): round-tripping is exact for parse-produced versions, and
holds up to replacing empty-string prerelease/metadata by `None` for every
version the program produces (`parse` outputs and `bump` outputs). -/
theorem claim_C2_amended :
    (∀ (s : String) (v : Version), Version.parse s = .ok v → Version.parse v.str = .ok v) ∧
    (∀ v : Version, Producible v → Version.parse v.str = .ok (normExtras v)) := by
  constructor
  · intro s v h
    have h2 := parse_good_render (parse_good h)
    rwa [parse_normExtras h] at h2
  · intro v h
    exact parse_good_render (producible_good h)

/-- Witness for C2 (amended) at the spec's example version string. -/
theorem claim_C2_amended_witness :
    Version.parse ((⟨1, 2, 3, some "rc.1", some "build.5"⟩ : Version).str)
      = .ok ⟨1, 2, 3, some "rc.1", some "build.5"⟩ :=
  claim_C2_amended.1 "1.2.3-rc.1+build.5" ⟨1, 2, 3, some "rc.1", some "build.5"⟩ (by decide)

theorem tailScan_dash_none {x : List Char} (hs : scanCands (preMatches x) = none) :
    tailScan ('-' :: x) = (K ('-' :: x)).map (fun m => (none, m)) := by
  show (match scanCands (preMatches x) with
    | some pm => some (some pm.1, pm.2)
    | none => (K ('-' :: x)).map (fun m => (none, m))) = _
  rw [hs]

theorem tailScan_decomp {t : List Char} {pre meta : Option (List Char)}
    (h : tailScan t = some (pre, meta)) :
    ∃ preP metaP nl, t = preP ++ metaP ++ nl ∧
      (preP = [] ∨ ∃ p, preP = '-' :: p ∧ PreLang p) ∧
      (metaP = [] ∨ ∃ sep m, (sep = '+' ∨ sep = '-') ∧ metaP = sep :: m ∧ MetaLang m) ∧
      (nl = [] ∨ nl = ['\n']) := by
  rcases tailScan_sound h with ⟨_, hK⟩ | ⟨p, r, _, rfl, hpl, hKr, _⟩
  · rcases K_sound hK with ⟨_, hr⟩ | ⟨sep, m, nl, hsep, rfl, _, hml, hnl⟩
    · exact ⟨[], [], t, by simp, Or.inl rfl, Or.inl rfl, hr⟩
    · exact ⟨[], sep :: m, nl, by simp, Or.inl rfl,
        Or.inr ⟨sep, m, hsep, rfl, hml⟩, hnl⟩
  · rcases K_sound hKr with ⟨_, hr⟩ | ⟨sep, m, nl, hsep, hre, _, hml, hnl⟩
    · exact ⟨'-' :: p, [], r, by simp, Or.inr ⟨p, rfl, hpl⟩, Or.inl rfl, hr⟩
    · exact ⟨'-' :: p, sep :: m, nl, by rw [hre]; simp, Or.inr ⟨p, rfl, hpl⟩,
        Or.inr ⟨sep, m, hsep, rfl, hml⟩, hnl⟩

theorem tailScan_grammar {preP metaP nl : List Char}
    (hp : preP = [] ∨ ∃ p, preP = '-' :: p ∧ PreLang p)
    (hm : metaP = [] ∨ ∃ sep m, (sep = '+' ∨ sep = '-') ∧ metaP = sep :: m ∧ MetaLang m)
    (hn : nl = [] ∨ nl = ['\n']) :
    tailScan (preP ++ metaP ++ nl) ≠ none := by
  have hK : ∃ mo, K (metaP ++ nl) = some mo := by
    rcases hm with rfl | ⟨sep, m, hsep, rfl, hml⟩
    · rcases hn with rfl | rfl
      · exact ⟨none, rfl⟩
      · exact ⟨none, by decide⟩
    · refine ⟨some m, ?_⟩
      show K ((sep :: m) ++ nl) = some (some m)
      rw [List.cons_append]
      exact K_meta hml hsep hn
  obtain ⟨mo, hKmn⟩ := hK
  rcases hp with rfl | ⟨p, rfl, hpl⟩
  · rw [List.nil_append]
    rcases hm with rfl | ⟨sep, m, hsep, rfl, hml⟩
    · rcases hn with rfl | rfl
      · decide
      · decide
    · rw [List.cons_append]
      rw [List.cons_append] at hKmn
      rcases hsep with rfl | rfl
      · rw [tailScan_not_dash (by decide) (m ++ nl), hKmn]
        simp
      · cases hsc : scanCands (preMatches (m ++ nl)) with
        | some pm =>
          obtain ⟨a2, b2⟩ := pm
          rw [tailScan_dash (m ++ nl) hsc]
          simp
        | none =>
          rw [tailScan_dash_none hsc, hKmn]
          simp
  · have hshape : (('-' :: p) ++ metaP) ++ nl = '-' :: (p ++ (metaP ++ nl)) := by simp
    rw [hshape]
    have hmem := preMatches_complete hpl (metaP ++ nl)
    have hsc : scanCands (preMatches (p ++ (metaP ++ nl))) ≠ none := by
      rw [Ne, scanCands_none_iff]
      intro hall
      have h2 := hall (p, metaP ++ nl) hmem
      rw [hKmn] at h2
      exact absurd h2 (by simp)
    cases hsc2 : scanCands (preMatches (p ++ (metaP ++ nl))) with
    | none => exact absurd hsc2 hsc
    | some pm =>
      obtain ⟨a2, b2⟩ := pm
      rw [tailScan_dash _ hsc2]
      simp

theorem reMatch_grammar {s : String} (hg : CodeGrammar s) : reMatch s.data ≠ none := by
  obtain ⟨A, B, C, preP, metaP, nl, hs, hA, hB, hC, hp, hm, hn⟩ := hg
  have hshape : s.data = A ++ '.' :: (B ++ '.' :: (C ++ (preP ++ metaP ++ nl))) := by
    rw [hs]
    simp [List.append_assoc]
  have hhead : notStarts Char.isDigit (preP ++ metaP ++ nl) := by
    rcases hp with rfl | ⟨p, rfl, _⟩
    · rcases hm with rfl | ⟨sep, m, hsep, rfl, _⟩
      · rcases hn with rfl | rfl
        · trivial
        · show Char.isDigit '\n' = false
          decide
      · show Char.isDigit sep = false
        rcases hsep with rfl | rfl <;> decide
    · show Char.isDigit '-' = false
      decide
  rw [hshape, reMatch_render hA hB hC hhead]
  have hts := tailScan_grammar hp hm hn
  cases hcase : tailScan (preP ++ metaP ++ nl) with
  | none => exact absurd hcase hts
  | some pm => simp

theorem reMatch_codeGrammar {s : String} {a b c : Nat} {pre meta : Option (List Char)}
    (h : reMatch s.data = some (a, b, c, pre, meta)) : CodeGrammar s := by
  obtain ⟨A, B, C, t, hs, hA, hB, hC, _, _, _, hts⟩ := reMatch_sound h
  obtain ⟨preP, metaP, nl, ht, hp, hm, hn⟩ := tailScan_decomp hts
  exact ⟨A, B, C, preP, metaP, nl, by rw [hs, ht]; simp [List.append_assoc], hA, hB, hC,
    hp, hm, hn⟩

theorem parseErrs_iff {s : String} :
    parseErrs s = true ↔ startsWithV s = true ∨ reMatch s.data = none := by
  unfold parseErrs Version.parse
  by_cases hv : startsWithV s = true
  · rw [if_pos hv]
    simp [hv]
  · rw [if_neg hv]
    cases hm : reMatch s.data with
    | none => simp [hv, hm]
    | some res =>
      obtain ⟨a, b2, c, pre, meta⟩ := res
      simp [hv, hm]

/-- C3 (amended): for ASCII input, `parse(s)` fails iff `s` starts with
`v` or does not match the code's grammar (metadata introduced by `+` or
`-`, numeric prerelease identifiers with no leading zero, an optional
single trailing newline accepted); the spec's example parse succeeds with
the stated fields.  The ASCII bound scopes the statement to where the
embedding's character classes coincide with Python's: the pattern is a
`str` regex without `re.ASCII`, so Python's `\d` also matches non-ASCII
Unicode decimal digits, and strings containing those are outside this
statement. -/
theorem claim_C3_amended :
    (∀ s : String, (∀ c ∈ s.data, c.toNat < 128) →
      (parseErrs s = true ↔ (startsWithV s = true ∨ ¬ CodeGrammar s))) ∧
    Version.parse "1.2.3-rc.1+build.5" = .ok ⟨1, 2, 3, some "rc.1", some "build.5"⟩ := by
  constructor
  · intro s _
    rw [parseErrs_iff]
    constructor
    · rintro (hv | hn)
      · exact Or.inl hv
      · right
        intro hg
        exact reMatch_grammar hg hn
    · rintro (hv | hn)
      · exact Or.inl hv
      · right
        cases hm : reMatch s.data with
        | none => rfl
        | some res =>
          obtain ⟨a, b, c, pre, meta⟩ := res
          exact absurd (reMatch_codeGrammar hm) hn
  · decide

/-- Witness for C3 (amended): the ASCII hypothesis discharged at the
concrete input `"1.2.3"`. -/
theorem claim_C3_amended_witness :
    (∀ c ∈ "1.2.3".data, c.toNat < 128) ∧
    (parseErrs "1.2.3" = true ↔ (startsWithV "1.2.3" = true ∨ ¬ CodeGrammar "1.2.3")) :=
  ⟨by decide, claim_C3_amended.1 "1.2.3" (by decide)⟩

/-- C10: a valid version string with no prerelease and no metadata part
parses to `None` (absent) extras, and the pydantic model distinguishes
`None` fields from empty-string fields although both render identically. -/
theorem claim_C10_parse_absent_extras :
    (∀ (s : String) (A B C nl : List Char),
      startsWithV s = false → NumLang A → NumLang B → NumLang C →
      (nl = [] ∨ nl = ['\n']) →
      s.data = A ++ '.' :: (B ++ '.' :: (C ++ nl)) →
      Version.parse s = .ok ⟨(digitsVal A : Int), (digitsVal B : Int), (digitsVal C : Int),
        none, none⟩) ∧
    (⟨1, 0, 0, none, none⟩ : Version) ≠ ⟨1, 0, 0, some "", some ""⟩ ∧
    (⟨1, 0, 0, none, none⟩ : Version).str = "1.0.0" ∧
    (⟨1, 0, 0, some "", some ""⟩ : Version).str = "1.0.0" := by
  refine ⟨?_, by decide, by decide, by decide⟩
  intro s A B C nl hv hA hB hC hnl hs
  have hhead : notStarts Char.isDigit nl := by
    rcases hnl with rfl | rfl
    · trivial
    · show Char.isDigit '\n' = false
      decide
  have hts : tailScan nl = some (none, none) := by
    rcases hnl with rfl | rfl
    · rfl
    · decide
  have hre : reMatch s.data = some (digitsVal A, digitsVal B, digitsVal C, none, none) := by
    rw [hs, reMatch_render hA hB hC hhead, hts]
    rfl
  exact parse_of_reMatch hv hre

/-- Witness for C10 at the input `"1.0.0"`. -/
theorem claim_C10_parse_absent_extras_witness :
    Version.parse "1.0.0" = .ok ⟨(digitsVal ['1'] : Int), (digitsVal ['0'] : Int),
      (digitsVal ['0'] : Int), none, none⟩ :=
  claim_C10_parse_absent_extras.1 "1.0.0" ['1'] ['0'] ['0'] []
    (by decide) (Or.inr ⟨by decide, by decide, by decide⟩) (Or.inl rfl) (Or.inl rfl)
    (Or.inl rfl) (by decide)
